import Mathlib

/-!
Verification of the utility library `src/utils/pure.ts`.

The development shallowly embeds the functions of the library:

* `random`, `randomString`, `getVisitId`, `createUUID` are modelled as pure
  functions over rationals; each call to the platform random source
  (`Math.random()` / `crypto.randomBytes`) is an explicit input stream, so
  theorems quantify over every outcome of the randomness.
* `cloneObject`, `deepMergeObject`, `getNewObject` operate on dynamically
  typed values that may alias one another, so they are embedded against an
  explicit heap of addressed container cells; mutation and instance
  identity become heap updates and address (in)equalities.

JavaScript numbers are modelled as rationals (`ℚ`); the decimal rendering
length of a float, used by `random`'s epsilon term, is an explicit input.
-/

/-- An argument value as passed to `random` in JavaScript: absent
(`undefined`), a boolean, or a number (modelled as a rational). -/
inductive JSArg where
  | undef
  | bool (b : Bool)
  | num (q : ℚ)
  deriving DecidableEq

/-- JavaScript truthiness of an argument (`undefined` and `0` are falsy). -/
def JSArg.truthy : JSArg → Bool
  | .undef => false
  | .bool b => b
  | .num q => decide (q ≠ 0)

/-- Test `typeof x === 'boolean'`. -/
def JSArg.isBoolean : JSArg → Bool
  | .bool _ => true
  | _ => false

/-- Numeric coercion of an argument; `none` models `NaN` (from `undefined`). -/
def JSArg.toNum : JSArg → Option ℚ
  | .undef => none
  | .bool b => some (if b then 1 else 0)
  | .num q => some q

/-- Truthiness of `x % 1` for a coerced number: true iff `x` has a nonzero
fractional part (`NaN`, from `undefined`, is falsy). -/
def hasFraction : Option ℚ → Bool
  | none => false
  | some q => decide (q.den ≠ 1)

/-- The comparison `a > b` on coerced numbers; any comparison with `NaN`
is false. -/
def numGt : Option ℚ → Option ℚ → Bool
  | some a, some b => decide (b < a)
  | _, _ => false

/-- Embedding of `random(lower, upper, floating)` from `src/utils/pure.ts`
lines 38-71.  `r` is the outcome of `Math.random()` (a draw in `[0,1)`) and
`rlen` is the length of the JavaScript decimal string `String(r)`, which the
source uses to build the epsilon `parseFloat('1e-' + ((rand + '').length - 1))`.
The result is the returned number, `none` standing for `NaN`. -/
def random (lower upper floating : JSArg) (r : ℚ) (rlen : ℕ) : Option ℚ :=
  -- if (floating && typeof floating !== 'boolean') { upper = floating = undefined; }
  let upper := if floating.truthy && !floating.isBoolean then JSArg.undef else upper
  let floating := if floating.truthy && !floating.isBoolean then JSArg.undef else floating
  -- if (floating === undefined) { ... treat a boolean bound as the flag ... }
  let step2 : JSArg × JSArg × JSArg :=
    if floating = JSArg.undef then
      if upper.isBoolean then (lower, JSArg.undef, upper)
      else if lower.isBoolean then (JSArg.undef, upper, lower)
      else (lower, upper, floating)
    else (lower, upper, floating)
  let lower := step2.1
  let upper := step2.2.1
  let floating := step2.2.2
  -- default bounds: [0, 1] if both absent, [0, lower] if only one given
  let defaulted : JSArg × JSArg :=
    if lower = JSArg.undef ∧ upper = JSArg.undef then (JSArg.num 0, JSArg.num 1)
    else if upper = JSArg.undef then (JSArg.num 0, lower)
    else (lower, upper)
  let lower := defaulted.1
  let upper := defaulted.2
  -- if (lower > upper) swap
  let swapped : JSArg × JSArg :=
    if numGt lower.toNum upper.toNum then (upper, lower) else (lower, upper)
  let lower := swapped.1
  let upper := swapped.2
  if floating.truthy || hasFraction lower.toNum || hasFraction upper.toNum then
    -- Math.min(lower + rand * (upper - lower + eps), upper)
    match lower.toNum, upper.toNum with
    | some lo, some hi => some (min (lo + r * (hi - lo + 1 / (10 : ℚ) ^ (rlen - 1))) hi)
    | _, _ => none
  else
    -- lower + Math.floor(Math.random() * (upper - lower + 1))
    match lower.toNum, upper.toNum with
    | some lo, some hi => some (lo + ((⌊r * (hi - lo + 1)⌋ : ℤ) : ℚ))
    | _, _ => none

/-- C2 as stated is false: a falsy non-boolean `floating` (such as `0`) does
not trigger the discarding branch, so `upper` is kept.  At
`random(0, 10, 0)` with draw `1/2` the call returns `5`, while `random(0)`
returns `0`. -/
theorem random_nonbool_floating_cex :
    random (JSArg.num 0) (JSArg.num 10) (JSArg.num 0) (1/2) 2 ≠
      random (JSArg.num 0) JSArg.undef JSArg.undef (1/2) 2 := by
  have h1 : random (JSArg.num 0) (JSArg.num 10) (JSArg.num 0) (1/2) 2 = some 5 := by
    simp [random, JSArg.truthy, JSArg.isBoolean, JSArg.toNum, numGt, hasFraction]
    norm_num [Rat.floor_def]
  have h2 : random (JSArg.num 0) JSArg.undef JSArg.undef (1/2) 2 = some 0 := by
    simp [random, JSArg.truthy, JSArg.isBoolean, JSArg.toNum, numGt, hasFraction]
    norm_num [Rat.floor_def]
  rw [h1, h2]
  simp

/-- C2 (amended): for every supplied truthy non-boolean value of `floating`,
`random(lower, upper, floating)` discards both `floating` and `upper` and
behaves exactly as `random(lower)` under the remaining precedence rules. -/
theorem random_truthy_nonbool_floating_drops (l u : JSArg) (q : ℚ) (hq : q ≠ 0)
    (r : ℚ) (rlen : ℕ) :
    random l u (JSArg.num q) r rlen = random l JSArg.undef JSArg.undef r rlen := by
  simp [random, JSArg.truthy, JSArg.isBoolean, hq]

/-- Witness for `random_truthy_nonbool_floating_drops` at concrete inputs. -/
theorem random_truthy_nonbool_floating_drops_witness :
    random (JSArg.num 0) (JSArg.num 10) (JSArg.num 3) (1/2) 2 =
      random (JSArg.num 0) JSArg.undef JSArg.undef (1/2) 2 :=
  random_truthy_nonbool_floating_drops (JSArg.num 0) (JSArg.num 10) 3 (by norm_num) (1/2) 2

/-- Integer-branch behaviour of `random` on integral bounds `l ≤ u` with the
floating flag unset or false: the result is an integer of `[l, u]`. -/
theorem randomInt_spec (l u : ℤ) (hlu : l ≤ u) (fl : JSArg)
    (hfl : fl = JSArg.undef ∨ fl = JSArg.bool false)
    (r : ℚ) (hr0 : 0 ≤ r) (hr1 : r < 1) (rlen : ℕ) :
    ∃ k : ℤ, random (JSArg.num (l : ℚ)) (JSArg.num (u : ℚ)) fl r rlen = some ((k : ℤ) : ℚ) ∧
      l ≤ k ∧ k ≤ u := by
  have hden_l : ((l : ℚ)).den = 1 := Rat.den_intCast l
  have hden_u : ((u : ℚ)).den = 1 := Rat.den_intCast u
  have hnotlt : ¬ ((u : ℚ) < (l : ℚ)) := by exact_mod_cast not_lt.mpr hlu
  refine ⟨l + ⌊r * ((u : ℚ) - (l : ℚ) + 1)⌋, ?_, ?_, ?_⟩
  · rcases hfl with rfl | rfl <;>
      simp [random, JSArg.truthy, JSArg.isBoolean, JSArg.toNum, numGt, hasFraction,
        hnotlt, hden_l, hden_u]
  · have h0 : (0 : ℚ) ≤ r * ((u : ℚ) - (l : ℚ) + 1) := by
      have : (0 : ℚ) ≤ (u : ℚ) - (l : ℚ) + 1 := by
        have : (l : ℚ) ≤ (u : ℚ) := by exact_mod_cast hlu
        linarith
      positivity
    have := Int.floor_nonneg.mpr h0
    omega
  · have hlt : r * ((u : ℚ) - (l : ℚ) + 1) < ((u - l + 1 : ℤ) : ℚ) := by
      have hpos : (0 : ℚ) < (u : ℚ) - (l : ℚ) + 1 := by
        have : (l : ℚ) ≤ (u : ℚ) := by exact_mod_cast hlu
        linarith
      have := mul_lt_of_lt_one_left hpos hr1
      push_cast
      linarith [mul_comm r ((u : ℚ) - (l : ℚ) + 1)]
    have := Int.floor_lt.mpr hlt
    omega

/-- C5: for all integers `lower ≤ upper` with the floating flag unset or
false, and every outcome of the pseudo-random draw, `random(lower, upper)`
returns an integer in the inclusive range `[lower, upper]`. -/
theorem random_int_range (l u : ℤ) (hlu : l ≤ u) (fl : JSArg)
    (hfl : fl = JSArg.undef ∨ fl = JSArg.bool false)
    (r : ℚ) (hr0 : 0 ≤ r) (hr1 : r < 1) (rlen : ℕ) :
    ∃ k : ℤ, random (JSArg.num (l : ℚ)) (JSArg.num (u : ℚ)) fl r rlen = some ((k : ℤ) : ℚ) ∧
      l ≤ k ∧ k ≤ u :=
  randomInt_spec l u hlu fl hfl r hr0 hr1 rlen

/-- Witness for `random_int_range`: `random(5, 5)` returns `5` at draw `1/2`. -/
theorem random_int_range_witness :
    ∃ k : ℤ, random (JSArg.num ((5 : ℤ) : ℚ)) (JSArg.num ((5 : ℤ) : ℚ)) JSArg.undef (1/2) 2 =
      some ((k : ℤ) : ℚ) ∧ (5 : ℤ) ≤ k ∧ k ≤ 5 :=
  random_int_range 5 5 (by norm_num) JSArg.undef (Or.inl rfl) (1/2) (by norm_num) (by norm_num) 2

/-- Hexadecimal digit character, as produced by `Number.prototype.toString(16)`
on a nibble value. -/
def hexDigit (n : ℕ) : Char :=
  if n < 10 then Char.ofNat (48 + n) else Char.ofNat (87 + n)

/-- Template string of `createUUID` (`src/utils/pure.ts` line 8). -/
def uuidTemplate : String := "xxxxxxxx-xxxx-4xxx-yxxx-xxxxxxxxxxxx"

/-- The `replace(/[xy]/g, t => ...)` traversal of `createUUID`: every `x`
consumes one strong-random byte `e = byte % 16` and becomes `e.toString(16)`;
every `y` consumes one byte and becomes `((3 & e) | 8).toString(16)`; other
characters pass through.  `bytes i` is the `i`-th byte drawn from
`crypto.randomBytes(1)[0]`. -/
def replaceXY (bytes : ℕ → ℕ) : List Char → ℕ → List Char
  | [], _ => []
  | c :: rest, i =>
    if c = 'x' then hexDigit (bytes i % 16) :: replaceXY bytes rest (i + 1)
    else if c = 'y' then hexDigit ((3 &&& (bytes i % 16)) ||| 8) :: replaceXY bytes rest (i + 1)
    else c :: replaceXY bytes rest i

/-- Embedding of `createUUID()` from `src/utils/pure.ts` lines 7-12. -/
def createUUID (bytes : ℕ → ℕ) : String :=
  ⟨replaceXY bytes uuidTemplate.data 0⟩

/-- Test for a lowercase hexadecimal digit `[0-9a-f]`. -/
def isHexLower (c : Char) : Bool :=
  ('0' ≤ c && c ≤ '9') || ('a' ≤ c && c ≤ 'f')

/-- Matcher for `^[0-9a-f]{8}-[0-9a-f]{4}-4[0-9a-f]{3}-[89ab][0-9a-f]{3}-[0-9a-f]{12}$`:
exactly 36 characters in the hyphenated 8-4-4-4-12 layout, version nibble `4`,
variant nibble in `{8,9,a,b}`. -/
def matchesUuidV4 (s : String) : Bool :=
  match s.data with
  | a0 :: a1 :: a2 :: a3 :: a4 :: a5 :: a6 :: a7 :: d0 :: b0 :: b1 :: b2 :: b3 :: d1 :: v0 ::
      c0 :: c1 :: c2 :: d2 :: w0 :: e0 :: e1 :: e2 :: d3 :: f0 :: f1 :: f2 :: f3 :: f4 :: f5 ::
      f6 :: f7 :: f8 :: f9 :: f10 :: f11 :: [] =>
    ([a0, a1, a2, a3, a4, a5, a6, a7, b0, b1, b2, b3, c0, c1, c2, e0, e1, e2,
      f0, f1, f2, f3, f4, f5, f6, f7, f8, f9, f10, f11].all isHexLower)
      && d0 = '-' && d1 = '-' && d2 = '-' && d3 = '-' && v0 = '4'
      && (w0 = '8' || w0 = '9' || w0 = 'a' || w0 = 'b')
  | _ => false

theorem hexDigit_mod16_isHexLower (n : ℕ) : isHexLower (hexDigit (n % 16)) = true := by
  have h : n % 16 < 16 := Nat.mod_lt _ (by norm_num)
  set e := n % 16 with he
  interval_cases e <;> decide

theorem hexDigit_variant (n : ℕ) :
    (hexDigit ((3 &&& (n % 16)) ||| 8) = '8' || hexDigit ((3 &&& (n % 16)) ||| 8) = '9' ||
      hexDigit ((3 &&& (n % 16)) ||| 8) = 'a' || hexDigit ((3 &&& (n % 16)) ||| 8) = 'b') = true := by
  have h : n % 16 < 16 := Nat.mod_lt _ (by norm_num)
  set e := n % 16 with he
  interval_cases e <;> decide

/-- C4: every string returned by `createUUID()`, for every outcome of the
random byte source, is 36 characters in the 8-4-4-4-12 hyphenated layout and
matches `^[0-9a-f]{8}-[0-9a-f]{4}-4[0-9a-f]{3}-[89ab][0-9a-f]{3}-[0-9a-f]{12}$`. -/
theorem createUUID_matches (bytes : ℕ → ℕ) :
    matchesUuidV4 (createUUID bytes) = true ∧ (createUUID bytes).length = 36 := by
  constructor
  · simp [createUUID, uuidTemplate, replaceXY, matchesUuidV4,
      hexDigit_mod16_isHexLower, hexDigit_variant]
  · simp [createUUID, uuidTemplate, replaceXY, String.length]

/-- Decimal digit character for a value below ten. -/
def digitChar (d : ℕ) : Char := Char.ofNat (48 + d)

/-- Decimal digit string of a natural number, as JavaScript renders
nonnegative integers; the first argument is recursion fuel, any value above
the number suffices. -/
def natDigitsAux : ℕ → ℕ → List Char
  | 0, _ => []
  | fuel + 1, n =>
    if n < 10 then [digitChar n]
    else natDigitsAux fuel (n / 10) ++ [digitChar (n % 10)]

/-- Decimal rendering of a natural number. -/
def natStr (n : ℕ) : String := ⟨natDigitsAux (n + 1) n⟩

/-- Numeric value of a decimal digit string; inverse of `natDigitsAux`. -/
def digitsToNat (l : List Char) : ℕ :=
  l.foldl (fun a c => 10 * a + (c.toNat - 48)) 0

theorem digitChar_toNat (d : ℕ) (hd : d < 10) : (digitChar d).toNat = 48 + d := by
  interval_cases d <;> decide

theorem digitsToNat_digits (fuel n : ℕ) (h : n < fuel) :
    digitsToNat (natDigitsAux fuel n) = n := by
  induction fuel generalizing n with
  | zero => omega
  | succ fuel ih =>
    by_cases h10 : n < 10
    · simp [natDigitsAux, h10, digitsToNat, digitChar_toNat n h10]
    · have hdiv : n / 10 < fuel := by
        have := Nat.div_lt_self (by omega : 0 < n) (by norm_num : 1 < 10)
        omega
      have hmod : n % 10 < 10 := Nat.mod_lt _ (by norm_num)
      simp only [natDigitsAux, h10, if_false, digitsToNat, List.foldl_append, List.foldl_cons,
        List.foldl_nil]
      have ihd := ih (n / 10) hdiv
      simp only [digitsToNat] at ihd
      rw [ihd, digitChar_toNat _ hmod]
      omega

theorem natStr_injective : Function.Injective natStr := by
  intro m n h
  have hdata : natDigitsAux (m + 1) m = natDigitsAux (n + 1) n := congrArg String.data h
  have := digitsToNat_digits (m + 1) m (by omega)
  rw [hdata, digitsToNat_digits (n + 1) n (by omega)] at this
  omega

/-- Behaviour of the single-argument call `random(q)` on an integral `q ≥ 0`:
the range defaults to `[0, q]` and the integer branch is taken. -/
theorem randomSingle_spec (q : ℚ) (hden : q.den = 1) (h0 : 0 ≤ q)
    (r : ℚ) (hr0 : 0 ≤ r) (hr1 : r < 1) (rlen : ℕ) :
    ∃ k : ℤ, random (JSArg.num q) JSArg.undef JSArg.undef r rlen = some ((k : ℤ) : ℚ) ∧
      0 ≤ k ∧ (k : ℚ) ≤ q := by
  have hq : ((q.num : ℤ) : ℚ) = q := by
    conv_rhs => rw [← Rat.num_div_den q]
    rw [hden]
    simp
  have hnotlt : ¬ (q < (0 : ℚ)) := not_lt.mpr h0
  refine ⟨⌊r * (q - 0 + 1)⌋, ?_, ?_, ?_⟩
  · simp [random, JSArg.truthy, JSArg.isBoolean, JSArg.toNum, numGt, hasFraction,
      hnotlt, hden]
  · have h0' : (0 : ℚ) ≤ r * (q - 0 + 1) := by
      have : (0 : ℚ) ≤ q - 0 + 1 := by linarith
      positivity
    exact Int.floor_nonneg.mpr h0'
  · have hlt : r * (q - 0 + 1) < ((q.num + 1 : ℤ) : ℚ) := by
      have hpos : (0 : ℚ) < q - 0 + 1 := by linarith
      have := mul_lt_of_lt_one_left hpos hr1
      push_cast
      rw [hq]
      linarith [mul_comm r (q - 0 + 1)]
    have hfl := Int.floor_lt.mpr hlt
    have hk : ⌊r * (q - 0 + 1)⌋ ≤ q.num := by omega
    have hk2 : ((⌊r * (q - 0 + 1)⌋ : ℤ) : ℚ) ≤ ((q.num : ℤ) : ℚ) := by exact_mod_cast hk
    rw [hq] at hk2
    exact hk2

/-- The 62-character alphanumeric alphabet of `randomString`
(`src/utils/pure.ts` line 79). -/
def chars62 : String := "1234567890abcdefghijklmnopqrstuvwxyzABCDEFGHIJKLMNOPQRSTUVWXYZ"

/-- Embedding of `getRandomItem(indexable)` (`src/utils/pure.ts` lines
190-194) for strings: `indexable[random(indexable.length - 1)]`.  `none`
models the `undefined` result of an out-of-range or fractional index. -/
def getRandomItem (s : String) (r : ℚ) (rlen : ℕ) : Option Char :=
  match random (JSArg.num ((s.length : ℚ) - 1)) JSArg.undef JSArg.undef r rlen with
  | none => none
  | some q =>
    if h : q.den = 1 ∧ 0 ≤ q.num ∧ q.num.toNat < s.data.length then
      some (s.data.get ⟨q.num.toNat, h.2.2⟩)
    else none

/-- The accumulation loop of `randomString`: for each loop index,
`result += getRandomItem(chars)`.  A failed character lookup concatenates
the text `undefined`, as JavaScript string concatenation with `undefined`
does. -/
def randomStringChars (draws : ℕ → ℚ) (rlens : ℕ → ℕ) : List ℕ → List Char
  | [] => []
  | i :: rest =>
    (match getRandomItem chars62 (draws i) (rlens i) with
      | some c => [c]
      | none => "undefined".data) ++ randomStringChars draws rlens rest

/-- Embedding of `randomString(length, lower)` from `src/utils/pure.ts`
lines 78-88; `draws i` and `rlens i` describe the `i`-th `Math.random()`
call. -/
def randomString (len : ℕ) (lower : Bool) (draws : ℕ → ℚ) (rlens : ℕ → ℕ) : List Char :=
  let result := randomStringChars draws rlens (List.range len)
  if lower then result.map Char.toLower else result

/-- JavaScript template rendering `${q}` of a number, modelled for
nonnegative integral values, the only ones interpolated by `getVisitId`. -/
def numRender (q : ℚ) : Option (List Char) :=
  if q.den = 1 ∧ 0 ≤ q.num then some (natDigitsAux (q.num.toNat + 1) q.num.toNat) else none

/-- Embedding of `getVisitId()` from `src/utils/pure.ts` lines 94-100:
`random(1, 9)` consumes draw `0`, then `randomString(10, true)` consumes
draws `1..10`; the result is the template `` `${randomNum}${randomStr}0` ``. -/
def getVisitId (draws : ℕ → ℚ) (rlens : ℕ → ℕ) : Option (List Char) :=
  match random (JSArg.num 1) (JSArg.num 9) JSArg.undef (draws 0) (rlens 0) with
  | none => none
  | some n =>
    match numRender n with
    | none => none
    | some ns =>
      some (ns ++ randomString 10 true (fun i => draws (i + 1)) (fun i => rlens (i + 1)) ++ ['0'])

/-- Test for a lowercase alphanumeric character `[0-9a-z]`. -/
def isLowerAlnum (c : Char) : Bool :=
  ('0' ≤ c && c ≤ '9') || ('a' ≤ c && c ≤ 'z')

theorem chars62_toLower_isLowerAlnum :
    ∀ c ∈ chars62.data, isLowerAlnum (Char.toLower c) = true := by
  decide

theorem getRandomItem_chars62 (r : ℚ) (hr0 : 0 ≤ r) (hr1 : r < 1) (rlen : ℕ) :
    ∃ c, getRandomItem chars62 r rlen = some c ∧ c ∈ chars62.data := by
  have h61 : ((chars62.length : ℚ) - 1) = ((61 : ℤ) : ℚ) := by
    norm_num [show chars62.length = 62 from rfl]
  obtain ⟨k, heq, hk0, hk61⟩ :=
    randomSingle_spec ((61 : ℤ) : ℚ) (Rat.den_intCast 61) (by norm_num) r hr0 hr1 rlen
  have hk61' : k ≤ 61 := by exact_mod_cast hk61
  have hidx : k.toNat < chars62.data.length := by
    have : chars62.data.length = 62 := rfl
    omega
  refine ⟨chars62.data.get ⟨k.toNat, hidx⟩, ?_, List.get_mem chars62.data k.toNat hidx⟩
  unfold getRandomItem
  rw [h61, heq]
  simp only [Rat.num_intCast, Rat.den_intCast]
  rw [dif_pos ⟨trivial, hk0, hidx⟩]

theorem randomStringChars_spec (draws : ℕ → ℚ) (rlens : ℕ → ℕ)
    (h : ∀ i, 0 ≤ draws i ∧ draws i < 1) (idxs : List ℕ) :
    (randomStringChars draws rlens idxs).length = idxs.length ∧
      ∀ c ∈ randomStringChars draws rlens idxs, c ∈ chars62.data := by
  induction idxs with
  | nil => simp [randomStringChars]
  | cons i rest ih =>
    obtain ⟨c, hceq, hcmem⟩ := getRandomItem_chars62 (draws i) (h i).1 (h i).2 (rlens i)
    constructor
    · simp [randomStringChars, hceq, ih.1]
    · intro x hx
      simp only [randomStringChars, hceq, List.mem_append, List.mem_singleton] at hx
      rcases hx with rfl | hx
      · exact hcmem
      · exact ih.2 x hx

theorem randomString_lower_spec (n : ℕ) (draws : ℕ → ℚ) (rlens : ℕ → ℕ)
    (h : ∀ i, 0 ≤ draws i ∧ draws i < 1) :
    (randomString n true draws rlens).length = n ∧
      ∀ c ∈ randomString n true draws rlens, isLowerAlnum c = true := by
  obtain ⟨hlen, hmem⟩ := randomStringChars_spec draws rlens h (List.range n)
  constructor
  · simp [randomString, hlen]
  · intro c hc
    simp only [randomString, if_pos, List.mem_map] at hc
    obtain ⟨c0, hc0, rfl⟩ := hc
    exact chars62_toLower_isLowerAlnum c0 (hmem c0 hc0)

theorem digitChar_one_to_nine (m : ℕ) (h1 : 1 ≤ m) (h9 : m ≤ 9) :
    '1' ≤ digitChar m ∧ digitChar m ≤ '9' := by
  interval_cases m <;> exact ⟨by decide, by decide⟩

/-- C8: every string returned by `getVisitId()`, for every outcome of the
general-purpose random generator, has length exactly 12, starts with a digit
in `1..9`, continues with 10 lowercase alphanumeric characters, and ends
with the literal digit `0`. -/
theorem getVisitId_shape (draws : ℕ → ℚ) (rlens : ℕ → ℕ)
    (h : ∀ i, 0 ≤ draws i ∧ draws i < 1) :
    ∃ c mid, getVisitId draws rlens = some (c :: (mid ++ ['0'])) ∧
      (c :: (mid ++ ['0'])).length = 12 ∧ ('1' ≤ c ∧ c ≤ '9') ∧
      mid.length = 10 ∧ ∀ x ∈ mid, isLowerAlnum x = true := by
  obtain ⟨k, heq, hk1, hk9⟩ := randomInt_spec 1 9 (by norm_num) JSArg.undef (Or.inl rfl)
    (draws 0) (h 0).1 (h 0).2 (rlens 0)
  have e1 : ((1 : ℤ) : ℚ) = (1 : ℚ) := by norm_num
  have e9 : ((9 : ℤ) : ℚ) = (9 : ℚ) := by norm_num
  rw [e1, e9] at heq
  have hk0 : (0 : ℤ) ≤ k := by omega
  have hm1 : 1 ≤ k.toNat := by omega
  have hm9 : k.toNat ≤ 9 := by omega
  have hm10 : k.toNat < 10 := by omega
  have hrender : numRender ((k : ℤ) : ℚ) = some [digitChar k.toNat] := by
    unfold numRender
    simp only [Rat.num_intCast, Rat.den_intCast]
    rw [if_pos ⟨trivial, hk0⟩]
    simp [natDigitsAux, hm10]
  obtain ⟨hmidlen, hmidmem⟩ := randomString_lower_spec 10 (fun i => draws (i + 1))
    (fun i => rlens (i + 1)) (fun i => h (i + 1))
  refine ⟨digitChar k.toNat, randomString 10 true (fun i => draws (i + 1)) (fun i => rlens (i + 1)),
    ?_, ?_, digitChar_one_to_nine k.toNat hm1 hm9, hmidlen, hmidmem⟩
  · simp [getVisitId, heq, hrender]
  · simp [hmidlen]

/-- Witness for `getVisitId_shape` with every draw equal to `1/2`. -/
theorem getVisitId_shape_witness :
    ∃ c mid, getVisitId (fun _ => 1/2) (fun _ => 3) = some (c :: (mid ++ ['0'])) ∧
      (c :: (mid ++ ['0'])).length = 12 ∧ ('1' ≤ c ∧ c ≤ '9') ∧
      mid.length = 10 ∧ ∀ x ∈ mid, isLowerAlnum x = true :=
  getVisitId_shape (fun _ => 1/2) (fun _ => 3) (fun _ => ⟨by norm_num, by norm_num⟩)

/-- A dynamically typed JavaScript value: a scalar, or a reference to a
container cell in the heap.  `nan` is the not-a-number scalar, which is
falsy like `0`. -/
inductive JSVal where
  | undef
  | null
  | nan
  | bool (b : Bool)
  | num (q : ℚ)
  | str (s : String)
  | ref (a : ℕ)
  deriving DecidableEq

/-- JavaScript truthiness of a value; containers are always truthy. -/
def JSVal.truthy : JSVal → Bool
  | .undef => false
  | .null => false
  | .nan => false
  | .bool b => b
  | .num q => decide (q ≠ 0)
  | .str s => decide (s ≠ "")
  | .ref _ => true

/-- Modelled from the spec: `src/utils/is.ts` is not among the sources; per
the specification's container dispatch, a value passes the `isObject` test
exactly when it is a container (sequence or keyed mapping), while
`null`/`undefined` and all scalars do not. -/
def isObjectV : JSVal → Bool
  | .ref _ => true
  | _ => false

/-- A container cell: an array of values or an object with ordered
string-keyed fields. -/
inductive HObj where
  | arrN (elems : List JSVal)
  | objN (fields : List (String × JSVal))
  deriving DecidableEq

/-- A heap: the allocated cells and the next fresh address. -/
structure Heap where
  cells : List (ℕ × HObj)
  next : ℕ
  deriving DecidableEq

/-- The everywhere-empty heap. -/
def emptyHeap : Heap := ⟨[], 0⟩

def Heap.get (h : Heap) (a : ℕ) : Option HObj :=
  (h.cells.find? (fun p => p.1 == a)).map Prod.snd

def Heap.set (h : Heap) (a : ℕ) (o : HObj) : Heap :=
  ⟨h.cells.map (fun p => if p.1 = a then (a, o) else p), h.next⟩

def Heap.alloc (h : Heap) (o : HObj) : Heap × ℕ :=
  (⟨(h.next, o) :: h.cells, h.next + 1⟩, h.next)

/-- Look up the first binding of a key in an ordered field list. -/
def lookupKey : List (String × JSVal) → String → Option JSVal
  | [], _ => none
  | (k', v) :: rest, k => if k' = k then some v else lookupKey rest k

/-- Write a key in an ordered field list: an existing binding keeps its
position, a new key is appended, as JavaScript property assignment does. -/
def assocSet : List (String × JSVal) → String → JSVal → List (String × JSVal)
  | [], k, v => [(k, v)]
  | (k', v') :: rest, k, v =>
    if k' = k then (k', v) :: rest else (k', v') :: assocSet rest k v

/-- The enumerable own fields of a cell, as JavaScript sees them: object
fields, or array elements keyed by their canonical decimal indices (this is
what `Object.keys` of an array lists; the non-enumerable `length` property
is outside this value model). -/
def cellFields : HObj → List (String × JSVal)
  | .objN fs => fs
  | .arrN xs => xs.enum.map (fun p => (natStr p.1, p.2))

/-- The key list `Object.keys(o)`. -/
def srcKeys (o : HObj) : List String := (cellFields o).map Prod.fst

/-- Property read `a[k]`: `undefined` when the key is absent. -/
def getProp (h : Heap) (a : ℕ) (k : String) : JSVal :=
  match h.get a with
  | some o => (lookupKey (cellFields o) k).getD JSVal.undef
  | none => JSVal.undef

/-- Property write on a single cell.  On an object cell the binding is
replaced in place or appended; on an array cell a canonical in-range index
is updated and the index one past the end appends; other array writes
(sparse indices or expando properties) are outside this value model and
leave the cell unchanged. -/
def setCell (o : HObj) (k : String) (v : JSVal) : HObj :=
  match o with
  | .objN fs => .objN (assocSet fs k v)
  | .arrN xs =>
    if k = natStr xs.length then .arrN (xs ++ [v])
    else .arrN (xs.enum.map (fun p => if natStr p.1 = k then v else p.2))

/-- Property write `a[k] = v` on the heap. -/
def setProp (h : Heap) (a : ℕ) (k : String) (v : JSVal) : Heap :=
  match h.get a with
  | some o => h.set a (setCell o k v)
  | none => h

/-- Well-formed heap: every allocated address is below `next`, and every
cell has pairwise distinct keys. -/
def Heap.wf (h : Heap) : Prop :=
  (∀ p ∈ h.cells, p.1 < h.next) ∧
    (∀ p ∈ h.cells, ((cellFields p.2).map Prod.fst).Nodup)

/-- The element loop of the array branch of `cloneObject`
(`object.map(item => cloneObject(item, deep))`), parameterised by the
recursive call. -/
def cloneElems (rec : Heap → JSVal → Option (Heap × JSVal)) :
    Heap → List JSVal → Option (Heap × List JSVal)
  | h, [] => some (h, [])
  | h, x :: xs =>
    match rec h x with
    | none => none
    | some (h1, y) =>
      match cloneElems rec h1 xs with
      | none => none
      | some (h2, ys) => some (h2, y :: ys)

/-- The key loop of the deep branch of `cloneObject`
(`Object.keys(object).reduce((result, key) => { result[key] = ... }, {})`),
parameterised by the recursive call; `ra` is the freshly allocated result
object being filled. -/
def cloneFields (rec : Heap → JSVal → Option (Heap × JSVal)) (ra : ℕ) :
    Heap → List (String × JSVal) → Option Heap
  | h, [] => some h
  | h, (k, v) :: fs =>
    match rec h v with
    | none => none
    | some (h1, v1) => cloneFields rec ra (setProp h1 ra k v1) fs

/-- Embedding of `cloneObject(object, deep)` from `src/utils/pure.ts` lines
126-140.  The first argument is recursion fuel, a modelling device: the
source recurses directly and diverges on cyclic input, which the model
renders as `none`; any fuel above the depth of the value suffices.
Scalars are returned unchanged; an array is cloned element by element and a
fresh array cell is allocated; an object is deep-cloned key by key into a
freshly allocated empty object, or shallowly copied
(`Object.assign({}, object)`) into a fresh cell with the same bindings. -/
def cloneObject : ℕ → Heap → JSVal → Bool → Option (Heap × JSVal)
  | 0, _, _, _ => none
  | fuel + 1, h, v, deep =>
    if ¬ isObjectV v then some (h, v)
    else
      match v with
      | .ref a =>
        match h.get a with
        | none => none
        | some (.arrN xs) =>
          match cloneElems (fun h0 x => cloneObject fuel h0 x deep) h xs with
          | none => none
          | some (h1, ys) =>
            let p := h1.alloc (.arrN ys)
            some (p.1, .ref p.2)
        | some (.objN fs) =>
          if deep then
            let p := h.alloc (.objN [])
            match cloneFields (fun h0 x => cloneObject fuel h0 x deep) p.2 p.1 fs with
            | none => none
            | some h2 => some (h2, .ref p.2)
          else
            let p := h.alloc (.objN fs)
            some (p.1, .ref p.2)
      | _ => some (h, v)

/-- The key loop of the mapping branch of `deepMergeObject`
(`Object.keys(source).reduce((result, key) => { result[key] =
deepMergeObject(target[key], source[key]); return result; }, target)`),
parameterised by the recursive call. -/
def mergeKeys (rec : Heap → JSVal → JSVal → Option (Heap × JSVal)) (ta sa : ℕ) :
    Heap → List String → Option (Heap × JSVal)
  | h, [] => some (h, .ref ta)
  | h, k :: ks =>
    match rec h (getProp h ta k) (getProp h sa k) with
    | none => none
    | some (h1, mv) => mergeKeys rec ta sa (setProp h1 ta k mv) ks

/-- Embedding of `deepMergeObject(target, source)` from `src/utils/pure.ts`
lines 147-162.  The first argument is recursion fuel, a modelling device:
the source recurses directly; any fuel above the depth of the source value
suffices, and `none` models divergence or a dangling reference. -/
def deepMergeObject : ℕ → Heap → JSVal → JSVal → Option (Heap × JSVal)
  | 0, _, _, _ => none
  | fuel + 1, h, target, source =>
    -- if (target === undefined || source === undefined) return (target || source)
    if target = JSVal.undef ∨ source = JSVal.undef then
      some (h, if target.truthy then target else source)
    -- if (!isObject(target) || !isObject(source)) return source
    else if ¬ isObjectV target ∨ ¬ isObjectV source then some (h, source)
    else
      match target, source with
      | .ref ta, .ref sa =>
        match h.get ta, h.get sa with
        | some (.arrN xs), some (.arrN ys) =>
          -- if both arrays: return target.concat(source)
          let p := h.alloc (.arrN (xs ++ ys))
          some (p.1, .ref p.2)
        | some _, some so => mergeKeys (deepMergeObject fuel) ta sa h (srcKeys so)
        | _, _ => none
      | _, _ => none

/-- Embedding of `getNewObject(object)` from `src/utils/pure.ts` lines
117-119: `object || {}` — a truthy input is returned unchanged, any falsy
input yields a freshly allocated empty mapping. -/
def getNewObject (h : Heap) (v : JSVal) : Heap × JSVal :=
  if v.truthy then (h, v)
  else
    let p := h.alloc (.objN [])
    (p.1, .ref p.2)

theorem Heap.get_alloc_self (h : Heap) (o : HObj) : (h.alloc o).1.get h.next = some o := by
  simp [Heap.alloc, Heap.get]

theorem Heap.get_alloc_ne (h : Heap) (o : HObj) (a : ℕ) (ha : a ≠ h.next) :
    (h.alloc o).1.get a = h.get a := by
  unfold Heap.alloc Heap.get
  rw [List.find?_cons_of_neg]
  simp [Ne.symm ha]

theorem Heap.lt_next_of_get_some (h : Heap) (hb : ∀ p ∈ h.cells, p.1 < h.next)
    (a : ℕ) (o : HObj) (hget : h.get a = some o) : a < h.next := by
  unfold Heap.get at hget
  cases hf : h.cells.find? (fun p => p.1 == a) with
  | none => rw [hf] at hget; simp at hget
  | some p =>
    have hmem := List.mem_of_find?_eq_some hf
    have hpred := List.find?_some hf
    have : p.1 = a := by simpa using hpred
    exact this ▸ hb p hmem

theorem Heap.get_none_of_ge (h : Heap) (hb : ∀ p ∈ h.cells, p.1 < h.next)
    (a : ℕ) (ha : h.next ≤ a) : h.get a = none := by
  cases hg : h.get a with
  | none => rfl
  | some o =>
    have hlt := Heap.lt_next_of_get_some h hb a o hg
    exact absurd (lt_of_lt_of_le hlt ha) (lt_irrefl a)

theorem Heap.set_next (h : Heap) (a : ℕ) (o : HObj) : (h.set a o).next = h.next := rfl

theorem find?_map_set (cells : List (ℕ × HObj)) (a : ℕ) (o : HObj) (b : ℕ)
    (hb : b ≠ a) :
    (cells.map (fun p => if p.1 = a then (a, o) else p)).find? (fun p => p.1 == b) =
      cells.find? (fun p => p.1 == b) := by
  induction cells with
  | nil => rfl
  | cons p rest ih =>
    by_cases hpa : p.1 = a
    · have h1 : ((a, o).1 == b) = false := by simp [Ne.symm hb]
      have h2 : (p.1 == b) = false := by simp [hpa, Ne.symm hb]
      simp only [List.map_cons, if_pos hpa, List.find?_cons, h1, h2, cond_false]
      exact ih
    · simp only [List.map_cons, if_neg hpa, List.find?_cons]
      cases hc : (p.1 == b) with
      | false => simpa [hc] using ih
      | true => simp [hc]

theorem find?_map_set_self (cells : List (ℕ × HObj)) (a : ℕ) (o : HObj)
    (h : (cells.find? (fun p => p.1 == a)).isSome) :
    (cells.map (fun p => if p.1 = a then (a, o) else p)).find? (fun p => p.1 == a) =
      some (a, o) := by
  induction cells with
  | nil => simp at h
  | cons p rest ih =>
    by_cases hpa : p.1 = a
    · simp only [List.map_cons, if_pos hpa, List.find?_cons]
      rw [show ((a, o).1 == a) = true by simp]
    · have hpb : (p.1 == a) = false := by simp [hpa]
      simp only [List.find?_cons, hpb, cond_false] at h
      simp only [List.map_cons, if_neg hpa, List.find?_cons, hpb, cond_false]
      exact ih h

theorem Heap.get_set_ne (h : Heap) (a : ℕ) (o : HObj) (b : ℕ) (hb : b ≠ a) :
    (h.set a o).get b = h.get b := by
  unfold Heap.set Heap.get
  rw [find?_map_set h.cells a o b hb]

theorem Heap.get_set_eq (h : Heap) (a : ℕ) (o o' : HObj) (hget : h.get a = some o') :
    (h.set a o).get a = some o := by
  unfold Heap.get at hget
  have hs : (h.cells.find? (fun p => p.1 == a)).isSome := by
    cases hf : h.cells.find? (fun p => p.1 == a) with
    | none => rw [hf] at hget; simp at hget
    | some p => rfl
  unfold Heap.set Heap.get
  rw [find?_map_set_self h.cells a o hs]
  rfl

/-- C10: `getNewObject` returns a fresh empty mapping for every falsy input
(`undefined`, `null`, `0`, the empty string, `false`, `NaN`), not only for
the absent value, and returns the input itself unchanged for every truthy
input. -/
theorem getNewObject_spec (h : Heap) (v : JSVal) (hwf : h.wf) :
    (v.truthy = true → getNewObject h v = (h, v)) ∧
    (v.truthy = false →
      (getNewObject h v).2 = JSVal.ref h.next ∧
      h.get h.next = none ∧
      (getNewObject h v).1.get h.next = some (HObj.objN []) ∧
      ∀ a, a < h.next → (getNewObject h v).1.get a = h.get a) ∧
    (JSVal.undef.truthy = false ∧ JSVal.null.truthy = false ∧ JSVal.nan.truthy = false ∧
      (JSVal.bool false).truthy = false ∧ (JSVal.num 0).truthy = false ∧
      (JSVal.str "").truthy = false) := by
  refine ⟨fun ht => by simp [getNewObject, ht], fun hf => ?_, ?_⟩
  · have hnone : h.get h.next = none := Heap.get_none_of_ge h hwf.1 h.next le_rfl
    refine ⟨by simp [getNewObject, hf, Heap.alloc], hnone, ?_, ?_⟩
    · simp only [getNewObject, hf, Bool.false_eq_true, if_false]
      exact Heap.get_alloc_self h _
    · intro a ha
      simp only [getNewObject, hf, Bool.false_eq_true, if_false]
      exact Heap.get_alloc_ne h _ a (Nat.ne_of_lt ha)
  · simp [JSVal.truthy]

/-- Witness for `getNewObject_spec` at the empty heap and the falsy number
`0`. -/
theorem getNewObject_spec_witness :
    ((JSVal.num 0).truthy = true → getNewObject emptyHeap (JSVal.num 0) = (emptyHeap, JSVal.num 0)) ∧
    ((JSVal.num 0).truthy = false →
      (getNewObject emptyHeap (JSVal.num 0)).2 = JSVal.ref emptyHeap.next ∧
      emptyHeap.get emptyHeap.next = none ∧
      (getNewObject emptyHeap (JSVal.num 0)).1.get emptyHeap.next = some (HObj.objN []) ∧
      ∀ a, a < emptyHeap.next → (getNewObject emptyHeap (JSVal.num 0)).1.get a = emptyHeap.get a) ∧
    (JSVal.undef.truthy = false ∧ JSVal.null.truthy = false ∧ JSVal.nan.truthy = false ∧
      (JSVal.bool false).truthy = false ∧ (JSVal.num 0).truthy = false ∧
      (JSVal.str "").truthy = false) :=
  getNewObject_spec emptyHeap (JSVal.num 0) ⟨by simp [emptyHeap], by simp [emptyHeap]⟩

/-- C1 as stated is false: `deepMergeObject(false, undefined)` evaluates the
`target || source` shortcut with a defined falsy target and returns
`undefined`, not the target. -/
theorem deepMergeObject_undef_source_cex :
    deepMergeObject 1 emptyHeap (JSVal.bool false) JSVal.undef =
      some (emptyHeap, JSVal.undef) ∧ JSVal.undef ≠ JSVal.bool false := by
  constructor
  · simp [deepMergeObject, JSVal.truthy]
  · simp

/-- C1 (amended): `deepMergeObject(target, undefined)` leaves the heap
untouched and returns the target itself whenever the target is truthy or is
itself `undefined` (so `deepMergeObject(undefined, undefined)` is
`undefined`); for a defined falsy target the `target || source` shortcut
returns `undefined` instead. -/
theorem deepMergeObject_undef_source (fuel : ℕ) (h : Heap) (tv : JSVal) :
    deepMergeObject (fuel + 1) h tv JSVal.undef =
      some (h, if tv.truthy then tv else JSVal.undef) := by
  simp [deepMergeObject]

/-- C9: when both target and source are arrays, `deepMergeObject` returns a
newly allocated array containing target's elements followed by source's
elements, and leaves the target (and source) arrays unmutated — the array
merge is out-of-place on both arguments. -/
theorem deepMergeObject_arrays (fuel : ℕ) (h : Heap) (ta sa : ℕ) (xs ys : List JSVal)
    (hwf : h.wf) (hta : h.get ta = some (HObj.arrN xs)) (hsa : h.get sa = some (HObj.arrN ys)) :
    deepMergeObject (fuel + 1) h (JSVal.ref ta) (JSVal.ref sa) =
      some ((h.alloc (HObj.arrN (xs ++ ys))).1, JSVal.ref h.next) ∧
    h.next ≠ ta ∧ h.next ≠ sa ∧ h.get h.next = none ∧
    (h.alloc (HObj.arrN (xs ++ ys))).1.get h.next = some (HObj.arrN (xs ++ ys)) ∧
    (h.alloc (HObj.arrN (xs ++ ys))).1.get ta = some (HObj.arrN xs) ∧
    (h.alloc (HObj.arrN (xs ++ ys))).1.get sa = some (HObj.arrN ys) ∧
    ∀ a, a < h.next → (h.alloc (HObj.arrN (xs ++ ys))).1.get a = h.get a := by
  have hlt_ta := Heap.lt_next_of_get_some h hwf.1 ta _ hta
  have hlt_sa := Heap.lt_next_of_get_some h hwf.1 sa _ hsa
  have hpres : ∀ a, a < h.next → (h.alloc (HObj.arrN (xs ++ ys))).1.get a = h.get a :=
    fun a ha => Heap.get_alloc_ne h _ a (Nat.ne_of_lt ha)
  refine ⟨?_, Ne.symm (Nat.ne_of_lt hlt_ta), Ne.symm (Nat.ne_of_lt hlt_sa),
    Heap.get_none_of_ge h hwf.1 h.next le_rfl,
    Heap.get_alloc_self h _, by rw [hpres ta hlt_ta]; exact hta,
    by rw [hpres sa hlt_sa]; exact hsa, hpres⟩
  simp [deepMergeObject, hta, hsa, isObjectV, Heap.alloc]

/-- Witness for `deepMergeObject_arrays` on two concrete array cells. -/
theorem deepMergeObject_arrays_witness :
    ∃ p, deepMergeObject 1 ⟨[(0, HObj.arrN []), (1, HObj.arrN [])], 2⟩
      (JSVal.ref 0) (JSVal.ref 1) = some p :=
  ⟨_, (deepMergeObject_arrays 0 ⟨[(0, HObj.arrN []), (1, HObj.arrN [])], 2⟩ 0 1 [] []
    ⟨by decide, by decide⟩ rfl rfl).1⟩

theorem lookupKey_assocSet_self (fs : List (String × JSVal)) (k : String) (v : JSVal) :
    lookupKey (assocSet fs k v) k = some v := by
  induction fs with
  | nil => simp [assocSet, lookupKey]
  | cons p rest ih =>
    by_cases hk : p.1 = k
    · simp [assocSet, hk, lookupKey]
    · simpa [assocSet, hk, lookupKey] using ih

theorem lookupKey_assocSet_ne (fs : List (String × JSVal)) (k k' : String) (v : JSVal)
    (hne : k' ≠ k) : lookupKey (assocSet fs k v) k' = lookupKey fs k' := by
  induction fs with
  | nil => simp [assocSet, lookupKey, Ne.symm hne]
  | cons p rest ih =>
    obtain ⟨pk, pv⟩ := p
    by_cases hk : pk = k
    · subst hk
      simp [assocSet, lookupKey, Ne.symm hne]
    · by_cases hk' : pk = k'
      · subst hk'
        simp [assocSet, hk, lookupKey]
      · simpa [assocSet, hk, lookupKey, hk'] using ih

theorem lookupKey_eq_none_of_not_mem (fs : List (String × JSVal)) (k : String)
    (hk : k ∉ fs.map Prod.fst) : lookupKey fs k = none := by
  induction fs with
  | nil => rfl
  | cons p rest ih =>
    simp only [List.map_cons, List.mem_cons, not_or] at hk
    simp only [lookupKey, if_neg (Ne.symm hk.1)]
    exact ih hk.2

theorem lookupKey_mem_of_some (fs : List (String × JSVal)) (k : String) (v : JSVal)
    (h : lookupKey fs k = some v) : k ∈ fs.map Prod.fst := by
  induction fs with
  | nil => simp [lookupKey] at h
  | cons p rest ih =>
    by_cases hk : p.1 = k
    · simp [hk]
    · simp only [lookupKey, if_neg hk] at h
      simp [ih h]

theorem assocSet_keys_of_mem (fs : List (String × JSVal)) (k : String) (v : JSVal)
    (hk : k ∈ fs.map Prod.fst) :
    (assocSet fs k v).map Prod.fst = fs.map Prod.fst := by
  induction fs with
  | nil => simp at hk
  | cons p rest ih =>
    obtain ⟨pk, pv⟩ := p
    by_cases hpk : pk = k
    · simp [assocSet, hpk]
    · have : k ∈ rest.map Prod.fst := by
        simp only [List.map_cons, List.mem_cons] at hk
        rcases hk with hk | hk
        · exact absurd hk.symm hpk
        · exact hk
      simp [assocSet, hpk, ih this]

theorem assocSet_keys_of_not_mem (fs : List (String × JSVal)) (k : String) (v : JSVal)
    (hk : k ∉ fs.map Prod.fst) :
    (assocSet fs k v).map Prod.fst = fs.map Prod.fst ++ [k] := by
  induction fs with
  | nil => simp [assocSet]
  | cons p rest ih =>
    obtain ⟨pk, pv⟩ := p
    simp only [List.map_cons, List.mem_cons, not_or] at hk
    simp [assocSet, Ne.symm hk.1, ih hk.2]

theorem assocSet_keys_nodup (fs : List (String × JSVal)) (k : String) (v : JSVal)
    (h : (fs.map Prod.fst).Nodup) : ((assocSet fs k v).map Prod.fst).Nodup := by
  by_cases hk : k ∈ fs.map Prod.fst
  · rw [assocSet_keys_of_mem fs k v hk]
    exact h
  · rw [assocSet_keys_of_not_mem fs k v hk]
    simp [List.nodup_append, h, hk]

theorem arr_keys (xs : List JSVal) :
    (cellFields (HObj.arrN xs)).map Prod.fst = (List.range xs.length).map natStr := by
  show (xs.enum.map (fun p => (natStr p.1, p.2))).map Prod.fst = (List.range xs.length).map natStr
  rw [← List.enum_map_fst xs, List.map_map, List.map_map]
  rfl

theorem arr_keys_nodup (xs : List JSVal) :
    ((cellFields (HObj.arrN xs)).map Prod.fst).Nodup := by
  rw [arr_keys]
  exact List.Nodup.map natStr_injective (List.nodup_range _)

theorem Heap.mem_of_get_some (h : Heap) (a : ℕ) (o : HObj) (hget : h.get a = some o) :
    (a, o) ∈ h.cells := by
  unfold Heap.get at hget
  cases hf : h.cells.find? (fun p => p.1 == a) with
  | none => rw [hf] at hget; simp at hget
  | some p =>
    rw [hf] at hget
    have hmem := List.mem_of_find?_eq_some hf
    have hpred : p.1 = a := by simpa using List.find?_some hf
    have hsnd : p.2 = o := by simpa using hget
    have hpe : p = (a, o) := by
      obtain ⟨p1, p2⟩ := p
      simp only at hpred hsnd
      rw [hpred, hsnd]
    rwa [hpe] at hmem

theorem Heap.wf_set (h : Heap) (a : ℕ) (o : HObj) (hwf : h.wf)
    (ho : ((cellFields o).map Prod.fst).Nodup) : (h.set a o).wf := by
  constructor
  · intro p hp
    obtain ⟨q, hq, he⟩ := List.mem_map.mp hp
    have hnext : (h.set a o).next = h.next := rfl
    rw [hnext]
    by_cases hqa : q.1 = a
    · rw [if_pos hqa] at he
      have : p.1 = a := by rw [← he]
      rw [this, ← hqa]
      exact hwf.1 q hq
    · rw [if_neg hqa] at he
      rw [← he]
      exact hwf.1 q hq
  · intro p hp
    obtain ⟨q, hq, he⟩ := List.mem_map.mp hp
    by_cases hqa : q.1 = a
    · rw [if_pos hqa] at he
      rw [← he]
      exact ho
    · rw [if_neg hqa] at he
      rw [← he]
      exact hwf.2 q hq

theorem Heap.wf_alloc (h : Heap) (o : HObj) (hwf : h.wf)
    (ho : ((cellFields o).map Prod.fst).Nodup) : (h.alloc o).1.wf := by
  constructor
  · intro p hp
    simp only [Heap.alloc, List.mem_cons] at hp
    rcases hp with rfl | hp
    · exact Nat.lt_succ_self _
    · exact Nat.lt_succ_of_lt (hwf.1 p hp)
  · intro p hp
    simp only [Heap.alloc, List.mem_cons] at hp
    rcases hp with rfl | hp
    · exact ho
    · exact hwf.2 p hp

theorem setCell_keys_nodup (o : HObj) (k : String) (v : JSVal)
    (ho : ((cellFields o).map Prod.fst).Nodup) :
    ((cellFields (setCell o k v)).map Prod.fst).Nodup := by
  cases o with
  | objN fs => exact assocSet_keys_nodup fs k v ho
  | arrN xs =>
    by_cases hk : k = natStr xs.length
    · simp only [setCell, if_pos hk]
      exact arr_keys_nodup _
    · simp only [setCell, if_neg hk]
      exact arr_keys_nodup _

theorem setProp_next (h : Heap) (a : ℕ) (k : String) (v : JSVal) :
    (setProp h a k v).next = h.next := by
  unfold setProp
  cases hg : h.get a with
  | none => rfl
  | some o => rfl

theorem setProp_get_ne (h : Heap) (a : ℕ) (k : String) (v : JSVal) (b : ℕ)
    (hb : b ≠ a) : (setProp h a k v).get b = h.get b := by
  unfold setProp
  cases hg : h.get a with
  | none => rfl
  | some o => exact Heap.get_set_ne h a _ b hb

theorem setProp_wf (h : Heap) (a : ℕ) (k : String) (v : JSVal) (hwf : h.wf) :
    (setProp h a k v).wf := by
  unfold setProp
  cases hg : h.get a with
  | none => exact hwf
  | some o =>
    have hmem := Heap.mem_of_get_some h a o hg
    have hnodup := hwf.2 (a, o) hmem
    exact Heap.wf_set h a _ hwf (setCell_keys_nodup o k v hnodup)

theorem cloneElems_inv (rec : Heap → JSVal → Option (Heap × JSVal))
    (hrec : ∀ h x h2 y, rec h x = some (h2, y) →
      h.next ≤ h2.next ∧ (∀ a, a < h.next → h2.get a = h.get a) ∧ (h.wf → h2.wf)) :
    ∀ (xs : List JSVal) (h h2 : Heap) (ys : List JSVal),
      cloneElems rec h xs = some (h2, ys) →
      h.next ≤ h2.next ∧ (∀ a, a < h.next → h2.get a = h.get a) ∧ (h.wf → h2.wf) ∧
      ys.length = xs.length := by
  intro xs
  induction xs with
  | nil =>
    intro h h2 ys hrun
    simp only [cloneElems, Option.some.injEq, Prod.mk.injEq] at hrun
    obtain ⟨rfl, rfl⟩ := hrun
    exact ⟨le_rfl, fun a _ => rfl, id, rfl⟩
  | cons x rest ih =>
    intro h h2 ys hrun
    simp only [cloneElems] at hrun
    split at hrun
    · exact absurd hrun (by simp)
    · rename_i p h1 y heq
      split at hrun
      · exact absurd hrun (by simp)
      · rename_i q h3 ys1 heq2
        simp only [Option.some.injEq, Prod.mk.injEq] at hrun
        obtain ⟨rfl, rfl⟩ := hrun
        obtain ⟨n1, p1, w1⟩ := hrec h x h1 y heq
        obtain ⟨n2, p2, w2, l2⟩ := ih h1 h3 ys1 heq2
        refine ⟨le_trans n1 n2, ?_, fun hw => w2 (w1 hw), by simp [l2]⟩
        intro a ha
        rw [p2 a (lt_of_lt_of_le ha n1), p1 a ha]

theorem cloneFields_inv (rec : Heap → JSVal → Option (Heap × JSVal))
    (hrec : ∀ h x h2 y, rec h x = some (h2, y) →
      h.next ≤ h2.next ∧ (∀ a, a < h.next → h2.get a = h.get a) ∧ (h.wf → h2.wf))
    (ra : ℕ) :
    ∀ (fs : List (String × JSVal)) (h h2 : Heap),
      cloneFields rec ra h fs = some h2 →
      h.next ≤ h2.next ∧ (∀ a, a < h.next → a ≠ ra → h2.get a = h.get a) ∧
      (h.wf → h2.wf) := by
  intro fs
  induction fs with
  | nil =>
    intro h h2 hrun
    simp only [cloneFields, Option.some.injEq] at hrun
    subst hrun
    exact ⟨le_rfl, fun a _ _ => rfl, id⟩
  | cons p rest ih =>
    obtain ⟨k, v⟩ := p
    intro h h2 hrun
    simp only [cloneFields] at hrun
    split at hrun
    · exact absurd hrun (by simp)
    · rename_i q h1 v1 heq
      obtain ⟨n1, p1, w1⟩ := hrec h v h1 v1 heq
      obtain ⟨n2, p2, w2⟩ := ih (setProp h1 ra k v1) h2 hrun
      rw [setProp_next h1 ra k v1] at n2
      refine ⟨le_trans n1 n2, ?_, ?_⟩
      · intro a ha hra
        have ha1 : a < (setProp h1 ra k v1).next := by
          rw [setProp_next]
          exact lt_of_lt_of_le ha n1
        rw [p2 a ha1 hra, setProp_get_ne h1 ra k v1 a hra, p1 a ha]
      · intro hw
        exact w2 (setProp_wf h1 ra k v1 (w1 hw))

theorem cloneObject_inv :
    ∀ (fuel : ℕ) (h : Heap) (v : JSVal) (deep : Bool) (h2 : Heap) (v2 : JSVal),
      cloneObject fuel h v deep = some (h2, v2) →
      h.next ≤ h2.next ∧ (∀ a, a < h.next → h2.get a = h.get a) ∧ (h.wf → h2.wf) ∧
      (isObjectV v = false → h2 = h ∧ v2 = v) ∧
      (isObjectV v = true → ∃ b, v2 = JSVal.ref b ∧ h.next ≤ b) := by
  intro fuel
  induction fuel with
  | zero =>
    intro h v deep h2 v2 hrun
    simp [cloneObject] at hrun
  | succ fuel ih =>
    intro h v deep h2 v2 hrun
    have hrec : ∀ hh x hh2 y, cloneObject fuel hh x deep = some (hh2, y) →
        hh.next ≤ hh2.next ∧ (∀ a, a < hh.next → hh2.get a = hh.get a) ∧
        (hh.wf → hh2.wf) := by
      intro hh x hh2 y hr
      obtain ⟨c1, c2, c3, _, _⟩ := ih hh x deep hh2 y hr
      exact ⟨c1, c2, c3⟩
    simp only [cloneObject] at hrun
    split at hrun
    · rename_i hsc
      simp only [Option.some.injEq, Prod.mk.injEq] at hrun
      obtain ⟨rfl, rfl⟩ := hrun
      have hobj2 : isObjectV v = false := by simpa using hsc
      exact ⟨le_rfl, fun a _ => rfl, id, fun _ => ⟨rfl, rfl⟩,
        fun ht => by rw [ht] at hobj2; cases hobj2⟩
    · rename_i hsc
      have hobj : isObjectV v = true := by simpa using hsc
      split at hrun
      · rename_i a
        split at hrun
        · exact absurd hrun (by simp)
        · -- array cell
          rename_i cell xs hget
          split at hrun
          · exact absurd hrun (by simp)
          · rename_i q h1 ys helems
            simp only [Option.some.injEq, Prod.mk.injEq] at hrun
            obtain ⟨rfl, rfl⟩ := hrun
            obtain ⟨n1, p1, w1, _⟩ := cloneElems_inv _ hrec xs h h1 ys helems
            refine ⟨le_trans n1 (Nat.le_succ _), ?_, ?_, ?_, ?_⟩
            · intro b hb
              rw [Heap.get_alloc_ne h1 _ b (Nat.ne_of_lt (lt_of_lt_of_le hb n1)), p1 b hb]
            · intro hw
              exact Heap.wf_alloc h1 _ (w1 hw) (arr_keys_nodup ys)
            · intro hf
              simp [isObjectV] at hf
            · intro _
              exact ⟨h1.next, rfl, n1⟩
        · -- object cell
          rename_i cell fs hget
          split at hrun
          · -- deep clone
            rename_i hdeep
            split at hrun
            · exact absurd hrun (by simp)
            · rename_i h1 hflds
              simp only [Option.some.injEq, Prod.mk.injEq] at hrun
              obtain ⟨rfl, rfl⟩ := hrun
              obtain ⟨n1, p1, w1⟩ :=
                cloneFields_inv _ hrec (h.alloc (HObj.objN [])).2 fs (h.alloc (HObj.objN [])).1
                  h1 hflds
              have hnn : (h.alloc (HObj.objN [])).1.next = h.next + 1 := rfl
              rw [hnn] at n1
              refine ⟨le_trans (Nat.le_succ _) n1, ?_, ?_, ?_, ?_⟩
              · intro b hb
                have hb1 : b < (h.alloc (HObj.objN [])).1.next := by
                  rw [hnn]
                  exact Nat.lt_succ_of_lt hb
                rw [p1 b hb1 (Nat.ne_of_lt hb),
                  Heap.get_alloc_ne h _ b (Nat.ne_of_lt hb)]
              · intro hw
                exact w1 (Heap.wf_alloc h _ hw (by simp [cellFields]))
              · intro hf
                simp [isObjectV] at hf
              · intro _
                exact ⟨h.next, rfl, le_rfl⟩
          · -- shallow clone
            rename_i hdeep
            simp only [Option.some.injEq, Prod.mk.injEq] at hrun
            obtain ⟨rfl, rfl⟩ := hrun
            refine ⟨Nat.le_succ _, ?_, ?_, ?_, ?_⟩
            · intro b hb
              exact Heap.get_alloc_ne h _ b (Nat.ne_of_lt hb)
            · intro hw
              exact Heap.wf_alloc h _ hw (hw.2 (a, HObj.objN fs) (Heap.mem_of_get_some h a _ hget))
            · intro hf
              simp [isObjectV] at hf
            · intro _
              exact ⟨h.next, rfl, le_rfl⟩
      · rename_i hne
        simp only [Option.some.injEq, Prod.mk.injEq] at hrun
        obtain ⟨rfl, rfl⟩ := hrun
        cases v with
        | ref a => exact absurd rfl (hne a)
        | undef => simp [isObjectV] at hobj
        | null => simp [isObjectV] at hobj
        | nan => simp [isObjectV] at hobj
        | bool b => simp [isObjectV] at hobj
        | num q => simp [isObjectV] at hobj
        | str s => simp [isObjectV] at hobj

theorem cloneElems_elements (rec : Heap → JSVal → Option (Heap × JSVal)) :
    ∀ (xs : List JSVal) (h h2 : Heap) (ys : List JSVal),
      cloneElems rec h xs = some (h2, ys) →
      ∀ i (hi : i < xs.length) (hi2 : i < ys.length), ∃ h3 h4,
        rec h3 (xs.get ⟨i, hi⟩) = some (h4, ys.get ⟨i, hi2⟩) := by
  intro xs
  induction xs with
  | nil =>
    intro h h2 ys hrun i hi hi2
    simp at hi
  | cons x rest ih =>
    intro h h2 ys hrun i hi hi2
    simp only [cloneElems] at hrun
    split at hrun
    · exact absurd hrun (by simp)
    · rename_i p h1 y heq
      split at hrun
      · exact absurd hrun (by simp)
      · rename_i q h3 ys1 heq2
        simp only [Option.some.injEq, Prod.mk.injEq] at hrun
        obtain ⟨rfl, rfl⟩ := hrun
        cases i with
        | zero => exact ⟨h, h1, heq⟩
        | succ i =>
          exact ih h1 h3 ys1 heq2 i (by simpa using hi) (by simpa using hi2)

/-- Heap thread of the element loop: a successful `cloneElems` run yields a
chain of heaps starting at the call's own heap, where the `i`-th element is
cloned from the `i`-th heap into the next, ending at the run's final heap. -/
theorem cloneElems_chain (rec : Heap → JSVal → Option (Heap × JSVal)) :
    ∀ (xs : List JSVal) (h h2 : Heap) (ys : List JSVal),
      cloneElems rec h xs = some (h2, ys) →
      ∃ hs : ℕ → Heap, hs 0 = h ∧ hs xs.length = h2 ∧
        ∀ i (hi : i < xs.length) (hi2 : i < ys.length),
          rec (hs i) (xs.get ⟨i, hi⟩) = some (hs (i + 1), ys.get ⟨i, hi2⟩) := by
  intro xs
  induction xs with
  | nil =>
    intro h h2 ys hrun
    simp only [cloneElems, Option.some.injEq, Prod.mk.injEq] at hrun
    obtain ⟨rfl, rfl⟩ := hrun
    exact ⟨fun _ => h, rfl, rfl, fun i hi => absurd hi (by simp)⟩
  | cons x rest ih =>
    intro h h2 ys hrun
    simp only [cloneElems] at hrun
    split at hrun
    · exact absurd hrun (by simp)
    · rename_i p h1 y heq
      split at hrun
      · exact absurd hrun (by simp)
      · rename_i q h3 ys1 heq2
        simp only [Option.some.injEq, Prod.mk.injEq] at hrun
        obtain ⟨rfl, rfl⟩ := hrun
        obtain ⟨hs1, hs10, hs1n, hchain⟩ := ih h1 h3 ys1 heq2
        refine ⟨fun i => match i with | 0 => h | i + 1 => hs1 i, rfl, ?_, ?_⟩
        · simpa using hs1n
        · intro i hi hi2
          cases i with
          | zero =>
            show rec h x = some (hs1 0, y)
            rw [hs10]
            exact heq
          | succ i =>
            exact hchain i (by simpa using hi) (by simpa using hi2)

/-- A successful `cloneObject` run on a reference presupposes that the
reference is live: the heap holds a cell at that address. -/
theorem cloneObject_ref_get (fuel : ℕ) (h : Heap) (c : ℕ) (deep : Bool)
    (h2 : Heap) (v2 : JSVal)
    (hrun : cloneObject fuel h (JSVal.ref c) deep = some (h2, v2)) :
    ∃ o, h.get c = some o := by
  cases fuel with
  | zero => simp [cloneObject] at hrun
  | succ fuel =>
    simp only [cloneObject] at hrun
    split at hrun
    · rename_i hsc
      simp [isObjectV] at hsc
    · split at hrun
      · exact absurd hrun (by simp)
      · rename_i cell xs hget
        exact ⟨_, hget⟩
      · rename_i cell fs hget
        exact ⟨_, hget⟩

/-- C7: for every array input and both values of `deep`, `cloneObject`
returns a fresh array of the same length whose elements are produced by the
successive recursive `cloneObject` calls on the input's elements with the
same `deep` flag, threading the heap from one element to the next starting
at the call's own heap (the result cell is allocated on the final heap of
that thread); a scalar element is returned unchanged, and a container
element always comes out as a freshly allocated reference distinct from the
input element — one level of array elements is cloned even when `deep` is
false. -/
theorem cloneObject_array_spec (fuel : ℕ) (h : Heap) (a : ℕ) (xs : List JSVal)
    (deep : Bool) (h2 : Heap) (v2 : JSVal) (hwf : h.wf)
    (hget : h.get a = some (HObj.arrN xs))
    (hrun : cloneObject fuel h (JSVal.ref a) deep = some (h2, v2)) :
    ∃ (b : ℕ) (ys : List JSVal) (hs : ℕ → Heap), v2 = JSVal.ref b ∧ b ≠ a ∧
      h2.get b = some (HObj.arrN ys) ∧ ys.length = xs.length ∧
      hs 0 = h ∧ b = (hs xs.length).next ∧
      h2 = ((hs xs.length).alloc (HObj.arrN ys)).1 ∧
      (∀ i (hi : i < xs.length) (hi2 : i < ys.length),
        cloneObject (fuel - 1) (hs i) (xs.get ⟨i, hi⟩) deep =
          some (hs (i + 1), ys.get ⟨i, hi2⟩)) ∧
      ∀ i (hi : i < xs.length) (hi2 : i < ys.length),
        (isObjectV (xs.get ⟨i, hi⟩) = false → ys.get ⟨i, hi2⟩ = xs.get ⟨i, hi⟩) ∧
        (isObjectV (xs.get ⟨i, hi⟩) = true →
          ∃ c, ys.get ⟨i, hi2⟩ = JSVal.ref c ∧ h.next ≤ c ∧
            ys.get ⟨i, hi2⟩ ≠ xs.get ⟨i, hi⟩) := by
  cases fuel with
  | zero => simp [cloneObject] at hrun
  | succ fuel =>
    have ha := Heap.lt_next_of_get_some h hwf.1 a _ hget
    simp only [cloneObject] at hrun
    split at hrun
    · rename_i hsc
      simp [isObjectV] at hsc
    · split at hrun
      · exact absurd hrun (by simp)
      · rename_i cell xs1 hget1
        rw [hget] at hget1
        have hxs : xs = xs1 := HObj.arrN.inj (Option.some.inj hget1)
        subst hxs
        split at hrun
        · exact absurd hrun (by simp)
        · rename_i q h1 ys helems
          simp only [Option.some.injEq, Prod.mk.injEq] at hrun
          obtain ⟨rfl, rfl⟩ := hrun
          have hrec : ∀ hh x hh2 y, cloneObject fuel hh x deep = some (hh2, y) →
              hh.next ≤ hh2.next ∧ (∀ c, c < hh.next → hh2.get c = hh.get c) ∧
              (hh.wf → hh2.wf) := by
            intro hh x hh2 y hr
            obtain ⟨c1, c2, c3, _, _⟩ := cloneObject_inv fuel hh x deep hh2 y hr
            exact ⟨c1, c2, c3⟩
          obtain ⟨n1, p1, w1, hlen⟩ := cloneElems_inv _ hrec xs h h1 ys helems
          obtain ⟨hs, hs0, hsn, hchain⟩ := cloneElems_chain _ xs h h1 ys helems
          have hacc : ∀ i, i ≤ xs.length → (hs i).wf ∧ h.next ≤ (hs i).next := by
            intro i
            induction i with
            | zero =>
              intro _
              rw [hs0]
              exact ⟨hwf, le_rfl⟩
            | succ i ihi =>
              intro hle
              have hi : i < xs.length := hle
              obtain ⟨wI, nI⟩ := ihi (Nat.le_of_lt hi)
              have hcl := hchain i hi (by rw [hlen]; exact hi)
              obtain ⟨c1, _, c3, _, _⟩ :=
                cloneObject_inv fuel (hs i) _ deep _ _ hcl
              exact ⟨c3 wI, le_trans nI c1⟩
          refine ⟨h1.next, ys, hs, rfl, ?_, Heap.get_alloc_self h1 _, hlen, hs0,
            by rw [hsn], by rw [hsn], ?_, ?_⟩
          · intro hcontra
            rw [hcontra] at n1
            exact absurd (lt_of_lt_of_le ha n1) (lt_irrefl a)
          · simpa only [Nat.add_sub_cancel] using hchain
          · intro i hi hi2
            have hcl := hchain i hi hi2
            obtain ⟨c1, c2, c3, c4, c5⟩ :=
              cloneObject_inv fuel (hs i) _ deep _ _ hcl
            refine ⟨fun hsc => (c4 hsc).2, fun hobj => ?_⟩
            obtain ⟨c, hc, hcn⟩ := c5 hobj
            obtain ⟨wI, nI⟩ := hacc i (Nat.le_of_lt hi)
            refine ⟨c, hc, le_trans nI hcn, ?_⟩
            cases hx : xs.get ⟨i, hi⟩ with
            | ref cp =>
              rw [hx] at hcl
              obtain ⟨o, hgo⟩ := cloneObject_ref_get fuel (hs i) cp deep _ _ hcl
              have hcp : cp < (hs i).next :=
                Heap.lt_next_of_get_some (hs i) wI.1 cp o hgo
              rw [hc]
              intro heqv
              have : c = cp := JSVal.ref.inj heqv
              omega
            | undef => rw [hx] at hobj; simp [isObjectV] at hobj
            | null => rw [hx] at hobj; simp [isObjectV] at hobj
            | nan => rw [hx] at hobj; simp [isObjectV] at hobj
            | bool b0 => rw [hx] at hobj; simp [isObjectV] at hobj
            | num q0 => rw [hx] at hobj; simp [isObjectV] at hobj
            | str s0 => rw [hx] at hobj; simp [isObjectV] at hobj
      · rename_i cell fs hget1
        rw [hget] at hget1
        exact absurd (Option.some.inj hget1) (by simp)

/-- Witness for `cloneObject_array_spec`: shallow-cloning the one-element
array at address `0`. -/
theorem cloneObject_array_spec_witness :
    ∃ (b : ℕ) (ys : List JSVal) (hs : ℕ → Heap), (JSVal.ref 1 : JSVal) = JSVal.ref b ∧ b ≠ 0 ∧
      (⟨[(1, HObj.arrN [JSVal.bool true]), (0, HObj.arrN [JSVal.bool true])], 2⟩ : Heap).get b =
        some (HObj.arrN ys) ∧
      ys.length = [JSVal.bool true].length ∧
      hs 0 = ⟨[(0, HObj.arrN [JSVal.bool true])], 1⟩ ∧
      b = (hs [JSVal.bool true].length).next ∧
      (⟨[(1, HObj.arrN [JSVal.bool true]), (0, HObj.arrN [JSVal.bool true])], 2⟩ : Heap) =
        ((hs [JSVal.bool true].length).alloc (HObj.arrN ys)).1 ∧
      (∀ i (hi : i < [JSVal.bool true].length) (hi2 : i < ys.length),
        cloneObject (2 - 1) (hs i) ([JSVal.bool true].get ⟨i, hi⟩) false =
          some (hs (i + 1), ys.get ⟨i, hi2⟩)) ∧
      ∀ i (hi : i < [JSVal.bool true].length) (hi2 : i < ys.length),
        (isObjectV ([JSVal.bool true].get ⟨i, hi⟩) = false →
          ys.get ⟨i, hi2⟩ = [JSVal.bool true].get ⟨i, hi⟩) ∧
        (isObjectV ([JSVal.bool true].get ⟨i, hi⟩) = true →
          ∃ c, ys.get ⟨i, hi2⟩ = JSVal.ref c ∧
            (⟨[(0, HObj.arrN [JSVal.bool true])], 1⟩ : Heap).next ≤ c ∧
            ys.get ⟨i, hi2⟩ ≠ [JSVal.bool true].get ⟨i, hi⟩) :=
  cloneObject_array_spec 2 ⟨[(0, HObj.arrN [JSVal.bool true])], 1⟩ 0 [JSVal.bool true] false
    ⟨[(1, HObj.arrN [JSVal.bool true]), (0, HObj.arrN [JSVal.bool true])], 2⟩ (JSVal.ref 1)
    ⟨by decide, by decide⟩ rfl rfl

/-- Disjoint-footprint representation of an ordered field list: each value
satisfies `pred` with its own footprint, and the footprints are pairwise
disjoint, concatenated in order. -/
def FieldsAtP (pred : JSVal → List ℕ → Prop) : List (String × JSVal) → List ℕ → Prop
  | [], F => F = []
  | (_, v) :: fs, F =>
    ∃ Fv Fs, F = Fv ++ Fs ∧ pred v Fv ∧ FieldsAtP pred fs Fs ∧ ∀ x ∈ Fv, x ∉ Fs

/-- The value `v` is a tree of depth below `d` in heap `h`, with footprint
`F`: scalars have an empty footprint; a reference heads its footprint,
whose tail is split disjointly among the referenced cell's fields.  A
tree-shaped value shares no cell between two of its positions and has no
cycle. -/
def TreeAtD : ℕ → Heap → JSVal → List ℕ → Prop
  | 0, _, _, _ => False
  | d + 1, h, v, F =>
    (isObjectV v = false ∧ F = []) ∨
    (∃ a o Fc, v = JSVal.ref a ∧ h.get a = some o ∧ F = a :: Fc ∧ a ∉ Fc ∧
      FieldsAtP (TreeAtD d h) (cellFields o) Fc)

theorem FieldsAtP_imp (p q : JSVal → List ℕ → Prop) :
    ∀ (fs : List (String × JSVal)) (F : List ℕ), FieldsAtP p fs F →
      (∀ v Fv, p v Fv → (∀ x ∈ Fv, x ∈ F) → q v Fv) → FieldsAtP q fs F := by
  intro fs
  induction fs with
  | nil => intro F hf _; exact hf
  | cons pr rest ih =>
    obtain ⟨k, v⟩ := pr
    intro F hf himp
    obtain ⟨Fv, Fs, rfl, hv, hrest, hdisj⟩ := hf
    refine ⟨Fv, Fs, rfl, himp v Fv hv (fun x hx => List.mem_append_left _ hx), ?_, hdisj⟩
    exact ih Fs hrest (fun w Fw hw hsub =>
      himp w Fw hw (fun x hx => List.mem_append_right _ (hsub x hx)))

theorem FieldsAtP_forall (p : JSVal → List ℕ → Prop) (Q : ℕ → Prop) :
    ∀ (fs : List (String × JSVal)) (F : List ℕ), FieldsAtP p fs F →
      (∀ v Fv, p v Fv → ∀ x ∈ Fv, Q x) → ∀ x ∈ F, Q x := by
  intro fs
  induction fs with
  | nil =>
    intro F hf _ x hx
    rw [hf] at hx
    simp at hx
  | cons pr rest ih =>
    obtain ⟨k, v⟩ := pr
    intro F hf hall x hx
    obtain ⟨Fv, Fs, rfl, hv, hrest, hdisj⟩ := hf
    rcases List.mem_append.mp hx with hx | hx
    · exact hall v Fv hv x hx
    · exact ih Fs hrest hall x hx

theorem TreeAtD_frame :
    ∀ (d : ℕ) (h h2 : Heap) (v : JSVal) (F : List ℕ),
      TreeAtD d h v F → (∀ x ∈ F, h2.get x = h.get x) → TreeAtD d h2 v F := by
  intro d
  induction d with
  | zero => intro h h2 v F ht _; exact absurd ht (by simp [TreeAtD])
  | succ d ih =>
    intro h h2 v F ht hagree
    rcases ht with ⟨hsc, rfl⟩ | ⟨a, o, Fc, rfl, hget, rfl, hnotin, hfields⟩
    · exact Or.inl ⟨hsc, rfl⟩
    · refine Or.inr ⟨a, o, Fc, rfl, ?_, rfl, hnotin, ?_⟩
      · rw [hagree a (List.mem_cons_self a Fc)]
        exact hget
      · exact FieldsAtP_imp _ _ (cellFields o) Fc hfields
          (fun w Fw hw hsub => ih h h2 w Fw hw
            (fun x hx => hagree x (List.mem_cons_of_mem a (hsub x hx))))

theorem TreeAtD_bound :
    ∀ (d : ℕ) (h : Heap) (v : JSVal) (F : List ℕ),
      TreeAtD d h v F → (∀ p ∈ h.cells, p.1 < h.next) → ∀ x ∈ F, x < h.next := by
  intro d
  induction d with
  | zero => intro h v F ht _; exact absurd ht (by simp [TreeAtD])
  | succ d ih =>
    intro h v F ht hb x hx
    rcases ht with ⟨_, rfl⟩ | ⟨a, o, Fc, rfl, hget, rfl, _, hfields⟩
    · simp at hx
    · rcases List.mem_cons.mp hx with rfl | hx
      · exact Heap.lt_next_of_get_some h hb x o hget
      · exact FieldsAtP_forall _ _ (cellFields o) Fc hfields
          (fun w Fw hw => ih h w Fw hw hb) x hx

theorem cellFields_arr_snd (xs : List JSVal) :
    (cellFields (HObj.arrN xs)).map Prod.snd = xs := by
  show (xs.enum.map (fun p => (natStr p.1, p.2))).map Prod.snd = xs
  rw [List.map_map]
  have he : (Prod.snd ∘ fun p : ℕ × JSVal => (natStr p.1, p.2)) = Prod.snd := rfl
  rw [he, List.enum_map_snd]

theorem cloneElems_total (d : ℕ) (deep : Bool)
    (hsucc : ∀ h v F, TreeAtD d h v F → h.wf → ∃ r, cloneObject d h v deep = some r) :
    ∀ (fs : List (String × JSVal)) (F : List ℕ) (h : Heap),
      FieldsAtP (TreeAtD d h) fs F → h.wf →
      ∃ r, cloneElems (fun h0 x => cloneObject d h0 x deep) h (fs.map Prod.snd) = some r := by
  intro fs
  induction fs with
  | nil => intro F h _ _; exact ⟨(h, []), rfl⟩
  | cons pr rest ih =>
    obtain ⟨k, v⟩ := pr
    intro F h hf hwf
    obtain ⟨Fv, Fs, rfl, hv, hrest, hdisj⟩ := hf
    obtain ⟨⟨h1, y⟩, hy⟩ := hsucc h v Fv hv hwf
    obtain ⟨n1, p1, w1, _, _⟩ := cloneObject_inv d h v deep h1 y hy
    have hwf1 := w1 hwf
    have hrest1 : FieldsAtP (TreeAtD d h1) rest Fs := by
      refine FieldsAtP_imp _ _ rest Fs hrest
        (fun w Fw hw hsub => TreeAtD_frame d h h1 w Fw hw ?_)
      intro x hx
      exact p1 x (TreeAtD_bound d h w Fw hw hwf.1 x hx)
    obtain ⟨⟨h2, ys⟩, hys⟩ := ih Fs h1 hrest1 hwf1
    refine ⟨(h2, y :: ys), ?_⟩
    simp only [List.map_cons, cloneElems, hy, hys]

theorem cloneFields_total (d : ℕ) (deep : Bool) (ra : ℕ)
    (hsucc : ∀ h v F, TreeAtD d h v F → h.wf → ∃ r, cloneObject d h v deep = some r) :
    ∀ (fs : List (String × JSVal)) (F : List ℕ) (h : Heap),
      FieldsAtP (TreeAtD d h) fs F → h.wf → (∀ x ∈ F, x ≠ ra) →
      ∃ h2, cloneFields (fun h0 x => cloneObject d h0 x deep) ra h fs = some h2 := by
  intro fs
  induction fs with
  | nil => intro F h _ _ _; exact ⟨h, rfl⟩
  | cons pr rest ih =>
    obtain ⟨k, v⟩ := pr
    intro F h hf hwf hne
    obtain ⟨Fv, Fs, rfl, hv, hrest, hdisj⟩ := hf
    obtain ⟨⟨h1, v1⟩, hy⟩ := hsucc h v Fv hv hwf
    obtain ⟨n1, p1, w1, _, _⟩ := cloneObject_inv d h v deep h1 v1 hy
    have hwf2 : (setProp h1 ra k v1).wf := setProp_wf h1 ra k v1 (w1 hwf)
    have hrest1 : FieldsAtP (TreeAtD d (setProp h1 ra k v1)) rest Fs := by
      refine FieldsAtP_imp _ _ rest Fs hrest
        (fun w Fw hw hsub => TreeAtD_frame d h (setProp h1 ra k v1) w Fw hw ?_)
      intro x hx
      have hxF : x ∈ Fv ++ Fs := List.mem_append_right _ (hsub x hx)
      rw [setProp_get_ne h1 ra k v1 x (hne x hxF),
        p1 x (TreeAtD_bound d h w Fw hw hwf.1 x hx)]
    obtain ⟨h2, hys⟩ := ih Fs (setProp h1 ra k v1) hrest1 hwf2
      (fun x hx => hne x (List.mem_append_right _ hx))
    refine ⟨h2, ?_⟩
    simp only [cloneFields, hy, hys]

theorem cloneObject_total :
    ∀ (d : ℕ) (h : Heap) (v : JSVal) (F : List ℕ) (deep : Bool),
      TreeAtD d h v F → h.wf → ∃ r, cloneObject d h v deep = some r := by
  intro d
  induction d with
  | zero => intro h v F deep ht _; exact absurd ht (by simp [TreeAtD])
  | succ d ih =>
    intro h v F deep ht hwf
    have hsucc : ∀ h0 v0 F0, TreeAtD d h0 v0 F0 → h0.wf →
        ∃ r, cloneObject d h0 v0 deep = some r :=
      fun h0 v0 F0 ht0 hw0 => ih h0 v0 F0 deep ht0 hw0
    rcases ht with ⟨hsc, rfl⟩ | ⟨a, o, Fc, rfl, hget, rfl, hnotin, hfields⟩
    · exact ⟨(h, v), by simp [cloneObject, hsc]⟩
    · cases o with
      | arrN xs =>
        obtain ⟨⟨h1, ys⟩, helems⟩ :=
          cloneElems_total d deep hsucc (cellFields (HObj.arrN xs)) Fc h hfields hwf
        rw [cellFields_arr_snd] at helems
        refine ⟨((h1.alloc (HObj.arrN ys)).1, JSVal.ref (h1.alloc (HObj.arrN ys)).2), ?_⟩
        simp [cloneObject, isObjectV, hget, helems]
      | objN fs =>
        cases deep with
        | true =>
          have hbound : ∀ x ∈ Fc, x < h.next :=
            FieldsAtP_forall _ _ (cellFields (HObj.objN fs)) Fc hfields
              (fun w Fw hw => TreeAtD_bound d h w Fw hw hwf.1)
          have hwf0 : (h.alloc (HObj.objN [])).1.wf :=
            Heap.wf_alloc h _ hwf (by simp [cellFields])
          have hfields0 :
              FieldsAtP (TreeAtD d (h.alloc (HObj.objN [])).1) (cellFields (HObj.objN fs)) Fc := by
            refine FieldsAtP_imp _ _ _ Fc hfields
              (fun w Fw hw hsub => TreeAtD_frame d h _ w Fw hw ?_)
            intro x hx
            exact Heap.get_alloc_ne h _ x (Nat.ne_of_lt (hbound x (hsub x hx)))
          obtain ⟨h2, hflds⟩ :=
            cloneFields_total d true (h.alloc (HObj.objN [])).2 hsucc fs Fc
              (h.alloc (HObj.objN [])).1 hfields0 hwf0
              (fun x hx => Nat.ne_of_lt (hbound x hx))
          exact ⟨(h2, JSVal.ref (h.alloc (HObj.objN [])).2),
            by simp [cloneObject, isObjectV, hget, hflds]⟩
        | false =>
          exact ⟨((h.alloc (HObj.objN fs)).1, JSVal.ref (h.alloc (HObj.objN fs)).2),
            by simp [cloneObject, isObjectV, hget]⟩

/-- C6: for every tree-shaped input value and both values of `deep`,
`cloneObject` succeeds (no input is rejected with an error); a non-container
scalar (including `null`/`undefined`) is returned unchanged with the heap
untouched, and a container input yields a container that is never the same
instance as the input. -/
theorem cloneObject_spec (d : ℕ) (h : Heap) (v : JSVal) (F : List ℕ) (deep : Bool)
    (hwf : h.wf) (ht : TreeAtD d h v F) :
    ∃ h2 v2, cloneObject d h v deep = some (h2, v2) ∧
      (isObjectV v = false → h2 = h ∧ v2 = v) ∧
      (∀ a, v = JSVal.ref a → ∃ b, v2 = JSVal.ref b ∧ b ≠ a) := by
  obtain ⟨⟨h2, v2⟩, hrun⟩ := cloneObject_total d h v F deep ht hwf
  obtain ⟨n1, p1, w1, hscal, hfresh⟩ := cloneObject_inv d h v deep h2 v2 hrun
  refine ⟨h2, v2, hrun, hscal, ?_⟩
  rintro a rfl
  obtain ⟨b, rfl, hb⟩ := hfresh (by simp [isObjectV])
  have ha : a < h.next := by
    rcases d with _ | d
    · exact absurd ht (by simp [TreeAtD])
    · rcases ht with ⟨hsc, _⟩ | ⟨a2, o, Fc, heqa, hget, _, _, _⟩
      · simp [isObjectV] at hsc
      · have ha2 : a2 = a := (JSVal.ref.inj heqa).symm
        subst ha2
        exact Heap.lt_next_of_get_some h hwf.1 a2 o hget
  refine ⟨b, rfl, ?_⟩
  intro hcontra
  rw [hcontra] at hb
  exact absurd (lt_of_lt_of_le ha hb) (lt_irrefl a)

/-- Witness for `cloneObject_spec`: cloning a reference to a one-element
array at address `0`. -/
theorem cloneObject_spec_witness :
    ∃ h2 v2,
      cloneObject 2 ⟨[(0, HObj.arrN [JSVal.bool true])], 1⟩ (JSVal.ref 0) false =
        some (h2, v2) ∧
      (isObjectV (JSVal.ref 0) = false →
        h2 = ⟨[(0, HObj.arrN [JSVal.bool true])], 1⟩ ∧ v2 = JSVal.ref 0) ∧
      (∀ a, (JSVal.ref 0 : JSVal) = JSVal.ref a → ∃ b, v2 = JSVal.ref b ∧ b ≠ a) :=
  cloneObject_spec 2 ⟨[(0, HObj.arrN [JSVal.bool true])], 1⟩ (JSVal.ref 0) [0] false
    ⟨by decide, by decide⟩
    (Or.inr ⟨0, HObj.arrN [JSVal.bool true], [], rfl, rfl, rfl, by simp,
      ⟨[], [], rfl, Or.inl ⟨rfl, rfl⟩, rfl, by simp⟩⟩)

/-- Remove the first binding of a key from an ordered field list. -/
def removeKey : List (String × JSVal) → String → List (String × JSVal)
  | [], _ => []
  | (k', v) :: rest, k => if k' = k then rest else (k', v) :: removeKey rest k

theorem lookupKey_removeKey_ne :
    ∀ (fs : List (String × JSVal)) (k k' : String), k' ≠ k →
      lookupKey (removeKey fs k) k' = lookupKey fs k' := by
  intro fs
  induction fs with
  | nil => intro k k' _; rfl
  | cons pr rest ih =>
    obtain ⟨k0, v0⟩ := pr
    intro k k' hne
    by_cases hk : k0 = k
    · subst hk
      simp [removeKey, lookupKey, Ne.symm hne]
    · by_cases hk' : k0 = k'
      · subst hk'
        simp [removeKey, hk, lookupKey, hne]
      · simp only [removeKey, if_neg hk, lookupKey, if_neg hk']
        exact ih k k' hne

theorem FieldsAtP_extract (p : JSVal → List ℕ → Prop) :
    ∀ (fs : List (String × JSVal)) (F : List ℕ) (k : String) (v : JSVal),
      FieldsAtP p fs F → lookupKey fs k = some v →
      ∃ Fv Frest, p v Fv ∧ FieldsAtP p (removeKey fs k) Frest ∧
        (∀ x ∈ Fv, x ∈ F) ∧ (∀ x ∈ Frest, x ∈ F) ∧
        (∀ x ∈ Fv, x ∉ Frest) ∧ (∀ x ∈ F, x ∈ Fv ∨ x ∈ Frest) := by
  intro fs
  induction fs with
  | nil => intro F k v _ hl; simp [lookupKey] at hl
  | cons pr rest ih =>
    obtain ⟨k0, v0⟩ := pr
    intro F k v hf hl
    obtain ⟨Fv0, Fs0, rfl, hv0, hrest, hdisj⟩ := hf
    by_cases hk : k0 = k
    · simp only [lookupKey, if_pos hk] at hl
      obtain rfl : v0 = v := Option.some.inj hl
      refine ⟨Fv0, Fs0, hv0, ?_, fun x hx => List.mem_append_left _ hx,
        fun x hx => List.mem_append_right _ hx, hdisj, ?_⟩
      · simp only [removeKey, if_pos hk]
        exact hrest
      · intro x hx
        rcases List.mem_append.mp hx with hx | hx
        · exact Or.inl hx
        · exact Or.inr hx
    · simp only [lookupKey, if_neg hk] at hl
      obtain ⟨Fv, Frest, hpv, hrem, hsub1, hsub2, hdisj2, hcov⟩ := ih Fs0 k v hrest hl
      refine ⟨Fv, Fv0 ++ Frest, hpv, ?_, ?_, ?_, ?_, ?_⟩
      · simp only [removeKey, if_neg hk]
        exact ⟨Fv0, Frest, rfl, hv0, hrem, fun x hx hx2 => hdisj x hx (hsub2 x hx2)⟩
      · exact fun x hx => List.mem_append_right _ (hsub1 x hx)
      · intro x hx
        rcases List.mem_append.mp hx with hx | hx
        · exact List.mem_append_left _ hx
        · exact List.mem_append_right _ (hsub2 x hx)
      · intro x hx hx2
        rcases List.mem_append.mp hx2 with hx2 | hx2
        · exact hdisj x hx2 (hsub1 x hx)
        · exact hdisj2 x hx hx2
      · intro x hx
        rcases List.mem_append.mp hx with hx | hx
        · exact Or.inr (List.mem_append_left _ hx)
        · rcases hcov x hx with hx | hx
          · exact Or.inl hx
          · exact Or.inr (List.mem_append_right _ hx)

theorem enumFrom_append_singleton (xs : List JSVal) (v : JSVal) :
    ∀ n, List.enumFrom n (xs ++ [v]) = List.enumFrom n xs ++ [(n + xs.length, v)] := by
  induction xs with
  | nil => intro n; simp [List.enumFrom]
  | cons x rest ih =>
    intro n
    have harith : n + 1 + rest.length = n + (rest.length + 1) := by omega
    simp [List.enumFrom, ih (n + 1), harith]

theorem cellFields_arr_append (xs : List JSVal) (v : JSVal) :
    cellFields (HObj.arrN (xs ++ [v])) =
      cellFields (HObj.arrN xs) ++ [(natStr xs.length, v)] := by
  show ((xs ++ [v]).enum.map (fun p => (natStr p.1, p.2))) = _
  rw [List.enum, enumFrom_append_singleton xs v 0, List.map_append]
  simp [cellFields, List.enum]

theorem lookupKey_append_single_ne (fs : List (String × JSVal)) (k0 : String) (v : JSVal)
    (k' : String) (h : k' ≠ k0) : lookupKey (fs ++ [(k0, v)]) k' = lookupKey fs k' := by
  induction fs with
  | nil => simp [lookupKey, Ne.symm h]
  | cons pr rest ih =>
    obtain ⟨k1, v1⟩ := pr
    by_cases hk : k1 = k'
    · simp [lookupKey, hk]
    · simp only [List.cons_append, lookupKey, if_neg hk]
      exact ih

theorem enumFrom_map_update (g : ℕ × JSVal → JSVal) :
    ∀ (xs : List JSVal) (n : ℕ),
      List.enumFrom n ((List.enumFrom n xs).map g) =
        (List.enumFrom n xs).map (fun p => (p.1, g p)) := by
  intro xs
  induction xs with
  | nil => intro n; rfl
  | cons x rest ih =>
    intro n
    simp only [List.enumFrom, List.map_cons]
    rw [ih (n + 1)]

theorem cellFields_arr_update (xs : List JSVal) (k : String) (v : JSVal) :
    cellFields (HObj.arrN (xs.enum.map (fun p => if natStr p.1 = k then v else p.2))) =
      (cellFields (HObj.arrN xs)).map (fun p => (p.1, if p.1 = k then v else p.2)) := by
  show (List.enum ((List.enum xs).map (fun p => if natStr p.1 = k then v else p.2))).map
      (fun p => (natStr p.1, p.2)) =
    ((List.enum xs).map (fun p => (natStr p.1, p.2))).map
      (fun p => (p.1, if p.1 = k then v else p.2))
  rw [List.enum, enumFrom_map_update, List.map_map, List.map_map]
  rfl

theorem lookupKey_map_cond (fs : List (String × JSVal)) (k k' : String) (v : JSVal)
    (hne : k' ≠ k) :
    lookupKey (fs.map (fun p => (p.1, if p.1 = k then v else p.2))) k' = lookupKey fs k' := by
  induction fs with
  | nil => rfl
  | cons pr rest ih =>
    obtain ⟨k0, v0⟩ := pr
    by_cases hk : k0 = k'
    · subst hk
      simp [lookupKey, if_neg (show k0 ≠ k from fun he => hne (he ▸ rfl))]
    · simp only [List.map_cons, lookupKey, if_neg hk]
      exact ih

theorem lookupKey_setCell_ne (o : HObj) (k k' : String) (v : JSVal) (hne : k' ≠ k) :
    lookupKey (cellFields (setCell o k v)) k' = lookupKey (cellFields o) k' := by
  cases o with
  | objN fs => exact lookupKey_assocSet_ne fs k k' v hne
  | arrN xs =>
    by_cases hk : k = natStr xs.length
    · simp only [setCell, if_pos hk]
      rw [cellFields_arr_append]
      rw [← hk]
      exact lookupKey_append_single_ne _ _ _ _ hne
    · simp only [setCell, if_neg hk]
      rw [cellFields_arr_update, lookupKey_map_cond _ k k' v hne]

theorem setProp_get_self (h : Heap) (a : ℕ) (k : String) (v : JSVal) (o : HObj)
    (hget : h.get a = some o) : (setProp h a k v).get a = some (setCell o k v) := by
  simp only [setProp, hget]
  exact Heap.get_set_eq h a _ o hget

theorem getProp_eq (h : Heap) (a : ℕ) (k : String) (o : HObj) (hget : h.get a = some o) :
    getProp h a k = (lookupKey (cellFields o) k).getD JSVal.undef := by
  simp only [getProp, hget]

theorem TreeAtD_succ :
    ∀ (d : ℕ) (h : Heap) (v : JSVal) (F : List ℕ),
      TreeAtD d h v F → TreeAtD (d + 1) h v F := by
  intro d
  induction d with
  | zero => intro h v F ht; exact absurd ht (by simp [TreeAtD])
  | succ d ih =>
    intro h v F ht
    rcases ht with ⟨hsc, rfl⟩ | ⟨a, o, Fc, rfl, hget, rfl, hnotin, hfields⟩
    · exact Or.inl ⟨hsc, rfl⟩
    · exact Or.inr ⟨a, o, Fc, rfl, hget, rfl, hnotin,
        FieldsAtP_imp _ _ _ Fc hfields (fun w Fw hw _ => ih h w Fw hw)⟩

theorem mergeKeys_inv (fuel : ℕ)
    (hP : ∀ (h : Heap) (tv sv : JSVal) (dt ds : ℕ) (Ft Fs : List ℕ) (h2 : Heap) (v : JSVal),
      deepMergeObject fuel h tv sv = some (h2, v) → h.wf →
      TreeAtD dt h tv Ft → TreeAtD ds h sv Fs → (∀ x ∈ Ft, x ∉ Fs) →
      h.next ≤ h2.next ∧ h2.wf ∧ (∀ a, a < h.next → a ∉ Ft → h2.get a = h.get a)) :
    ∀ (ks : List String) (h : Heap) (ta sa : ℕ)
      (tRem : List (String × JSVal)) (FRem : List ℕ) (dt ds : ℕ) (Fs : List ℕ)
      (h2 : Heap) (v : JSVal) (tc : HObj),
      mergeKeys (deepMergeObject fuel) ta sa h ks = some (h2, v) →
      h.wf →
      h.get ta = some tc →
      (∀ k ∈ ks, lookupKey (cellFields tc) k = lookupKey tRem k) →
      FieldsAtP (TreeAtD dt h) tRem FRem →
      ta ∉ FRem →
      TreeAtD ds h (JSVal.ref sa) Fs →
      (∀ x ∈ FRem, x ∉ Fs) →
      ta ∉ Fs →
      ks.Nodup →
      v = JSVal.ref ta ∧ h.next ≤ h2.next ∧ h2.wf ∧
      (∀ a, a < h.next → a ∉ FRem → a ≠ ta → h2.get a = h.get a) ∧
      (∀ k, k ∉ ks → getProp h2 ta k = getProp h ta k) ∧
      (∀ tc0, tc = HObj.objN tc0 →
        ∀ k ∈ ks, ∃ g h3 h4 mv,
          deepMergeObject g h3 (getProp h3 ta k) (getProp h3 sa k) = some (h4, mv) ∧
          getProp h2 ta k = mv) := by
  intro ks
  induction ks with
  | nil =>
    intro h ta sa tRem FRem dt ds Fs h2 v tc hrun hwf hgetta hlook hFRem htaF hsrc hdisj
      htaFs hnodup
    simp only [mergeKeys, Option.some.injEq, Prod.mk.injEq] at hrun
    obtain ⟨rfl, rfl⟩ := hrun
    exact ⟨rfl, le_rfl, hwf, fun a _ _ _ => rfl, fun k _ => rfl,
      fun tc0 _ k hk => absurd hk (by simp)⟩
  | cons k ks ih =>
    intro h ta sa tRem FRem dt ds Fs h2 v tc hrun hwf hgetta hlook hFRem htaF hsrc hdisj
      htaFs hnodup
    have hFRemBound : ∀ x ∈ FRem, x < h.next :=
      FieldsAtP_forall _ _ tRem FRem hFRem (fun w Fw hw => TreeAtD_bound dt h w Fw hw hwf.1)
    have hFsBound : ∀ x ∈ Fs, x < h.next := TreeAtD_bound ds h _ Fs hsrc hwf.1
    have htaLt : ta < h.next := Heap.lt_next_of_get_some h hwf.1 ta tc hgetta
    have hkNotKs : k ∉ ks := (List.nodup_cons.mp hnodup).1
    have hksNodup : ks.Nodup := (List.nodup_cons.mp hnodup).2
    -- decompose the source tree one level
    cases ds with
    | zero => exact absurd hsrc (by simp [TreeAtD])
    | succ ds0 =>
      have hsrc0 := hsrc
      obtain ⟨sc, Fsc, hgetsa, hFseq, hsaNotFsc, hsfields⟩ :
          ∃ sc Fsc, h.get sa = some sc ∧ Fs = sa :: Fsc ∧ sa ∉ Fsc ∧
            FieldsAtP (TreeAtD ds0 h) (cellFields sc) Fsc := by
        rcases hsrc with ⟨hscal, _⟩ | ⟨a0, o0, Fc0, heq0, hget0, hFeq0, hnot0, hf0⟩
        · simp [isObjectV] at hscal
        · obtain rfl : a0 = sa := (JSVal.ref.inj heq0).symm
          exact ⟨o0, Fc0, hget0, hFeq0, hnot0, hf0⟩
      subst hFseq
      -- unfold one step of the key loop
      simp only [mergeKeys] at hrun
      split at hrun
      · exact absurd hrun (by simp)
      · rename_i p h1 mv heq
        -- the target-side child and the remainder of the target representation
        have hgp_t : getProp h ta k = (lookupKey tRem k).getD JSVal.undef := by
          rw [getProp_eq h ta k tc hgetta, hlook k (List.mem_cons_self k ks)]
        obtain ⟨tvk, Ftv, tRem2, Frest, hgp_t2, htv, hremF, hsub1, hsub2, hdisj2, hcov, hlook2⟩ :
            ∃ tvk Ftv tRem2 Frest,
              getProp h ta k = tvk ∧
              TreeAtD (dt + 1) h tvk Ftv ∧
              FieldsAtP (TreeAtD dt h) tRem2 Frest ∧
              (∀ x ∈ Ftv, x ∈ FRem) ∧ (∀ x ∈ Frest, x ∈ FRem) ∧
              (∀ x ∈ Ftv, x ∉ Frest) ∧ (∀ x ∈ FRem, x ∈ Ftv ∨ x ∈ Frest) ∧
              (∀ k', k' ≠ k → lookupKey tRem2 k' = lookupKey tRem k') := by
          cases hl : lookupKey tRem k with
          | none =>
            refine ⟨JSVal.undef, [], tRem, FRem, by rw [hgp_t, hl]; rfl,
              Or.inl ⟨rfl, rfl⟩, hFRem, by simp, fun x hx => hx, by simp,
              fun x hx => Or.inr hx, fun k' _ => rfl⟩
          | some tvv =>
            obtain ⟨Ftv, Frest, hpv, hrem, hs1, hs2, hd2, hcv⟩ :=
              FieldsAtP_extract _ tRem FRem k tvv hFRem hl
            exact ⟨tvv, Ftv, removeKey tRem k, Frest, by rw [hgp_t, hl]; rfl,
              TreeAtD_succ dt h tvv Ftv hpv, hrem, hs1, hs2, hd2, hcv,
              fun k' hk' => lookupKey_removeKey_ne tRem k k' hk'⟩
        -- the source-side child
        obtain ⟨svk, Fsv, hgp_s, hsv, hssub⟩ :
            ∃ svk Fsv, getProp h sa k = svk ∧ TreeAtD (ds0 + 1) h svk Fsv ∧
              ∀ x ∈ Fsv, x ∈ sa :: Fsc := by
          rw [getProp_eq h sa k sc hgetsa]
          cases hls : lookupKey (cellFields sc) k with
          | none => exact ⟨JSVal.undef, [], rfl, Or.inl ⟨rfl, rfl⟩, by simp⟩
          | some svv =>
            obtain ⟨Fsv, Frs, hpsv, _, hss1, _, _, _⟩ :=
              FieldsAtP_extract _ (cellFields sc) Fsc k svv hsfields hls
            exact ⟨svv, Fsv, rfl, TreeAtD_succ ds0 h svv Fsv hpsv,
              fun x hx => List.mem_cons_of_mem sa (hss1 x hx)⟩
        have hdisjcall : ∀ x ∈ Ftv, x ∉ Fsv :=
          fun x hx hx2 => hdisj x (hsub1 x hx) (hssub x hx2)
        rw [hgp_t2, hgp_s] at heq
        obtain ⟨n1, w1, pr1⟩ :=
          hP h tvk svk (dt + 1) (ds0 + 1) Ftv Fsv h1 mv heq hwf htv hsv hdisjcall
        have htaNotFtv : ta ∉ Ftv := fun hx => htaF (hsub1 ta hx)
        have hta_pres : h1.get ta = some tc := by
          rw [pr1 ta htaLt htaNotFtv]
          exact hgetta
        have hget2' : (setProp h1 ta k mv).get ta = some (setCell tc k mv) :=
          setProp_get_self h1 ta k mv tc hta_pres
        have hwf2' : (setProp h1 ta k mv).wf := setProp_wf h1 ta k mv w1
        have hnext2' : (setProp h1 ta k mv).next = h1.next := setProp_next h1 ta k mv
        have hpres2' : ∀ x, x < h.next → x ∉ Ftv → x ≠ ta →
            (setProp h1 ta k mv).get x = h.get x := by
          intro x hx hxf hxta
          rw [setProp_get_ne h1 ta k mv x hxta, pr1 x hx hxf]
        have hremF2 : FieldsAtP (TreeAtD dt (setProp h1 ta k mv)) tRem2 Frest := by
          refine FieldsAtP_imp _ _ tRem2 Frest hremF (fun w Fw hw hsubw =>
            TreeAtD_frame dt h _ w Fw hw (fun x hx => ?_))
          have hxRem : x ∈ FRem := hsub2 x (hsubw x hx)
          exact hpres2' x (hFRemBound x hxRem) (fun hxf => hdisj2 x hxf (hsubw x hx))
            (fun hxeq => htaF (hxeq ▸ hxRem))
        have hsrc2 : TreeAtD (ds0 + 1) (setProp h1 ta k mv) (JSVal.ref sa) (sa :: Fsc) := by
          refine TreeAtD_frame _ h _ _ _ hsrc0 (fun x hx => ?_)
          refine hpres2' x (hFsBound x hx) (fun hxf => hdisj x (hsub1 x hxf) hx)
            (fun hxeq => htaFs (hxeq ▸ hx))
        have hlook2' : ∀ k' ∈ ks,
            lookupKey (cellFields (setCell tc k mv)) k' = lookupKey tRem2 k' := by
          intro k' hk'
          have hkk' : k' ≠ k := fun he => hkNotKs (he ▸ hk')
          rw [lookupKey_setCell_ne tc k k' mv hkk',
            hlook k' (List.mem_cons_of_mem k hk'), hlook2 k' hkk']
        obtain ⟨c1, c2, c3, c4, c5, c6⟩ :=
          ih (setProp h1 ta k mv) ta sa tRem2 Frest dt (ds0 + 1) (sa :: Fsc) h2 v
            (setCell tc k mv) hrun hwf2' hget2' hlook2' hremF2
            (fun hx => htaF (hsub2 ta hx)) hsrc2
            (fun x hx => hdisj x (hsub2 x hx)) htaFs hksNodup
        refine ⟨c1, ?_, c3, ?_, ?_, ?_⟩
        · rw [hnext2'] at c2
          omega
        · intro a ha haF hata
          have ha2 : a < (setProp h1 ta k mv).next := by
            rw [hnext2']
            omega
          rw [c4 a ha2 (fun hx => haF (hsub2 a hx)) hata,
            hpres2' a ha (fun hx => haF (hsub1 a hx)) hata]
        · intro k' hk'
          have hk'ks : k' ∉ ks := fun hx => hk' (List.mem_cons_of_mem k hx)
          have hk'k : k' ≠ k := fun he => hk' (he ▸ List.mem_cons_self k ks)
          rw [c5 k' hk'ks, getProp_eq _ ta k' _ hget2', getProp_eq h ta k' tc hgetta,
            lookupKey_setCell_ne tc k k' mv hk'k]
        · intro tc0 htc0 k' hk'
          subst htc0
          rcases List.mem_cons.mp hk' with rfl | hk'
          · refine ⟨fuel, h, h1, mv, by rw [hgp_t2, hgp_s]; exact heq, ?_⟩
            rw [c5 k' hkNotKs, getProp_eq _ ta k' _ hget2']
            show (lookupKey (cellFields (setCell (HObj.objN tc0) k' mv)) k').getD JSVal.undef = mv
            rw [show cellFields (setCell (HObj.objN tc0) k' mv) = assocSet tc0 k' mv from rfl,
              lookupKey_assocSet_self tc0 k' mv]
            rfl
          · exact c6 (assocSet tc0 k mv) rfl k' hk'

theorem deepMergeObject_inv :
    ∀ (fuel : ℕ) (h : Heap) (tv sv : JSVal) (dt ds : ℕ) (Ft Fs : List ℕ)
      (h2 : Heap) (v : JSVal),
      deepMergeObject fuel h tv sv = some (h2, v) → h.wf →
      TreeAtD dt h tv Ft → TreeAtD ds h sv Fs → (∀ x ∈ Ft, x ∉ Fs) →
      h.next ≤ h2.next ∧ h2.wf ∧ (∀ a, a < h.next → a ∉ Ft → h2.get a = h.get a) := by
  intro fuel
  induction fuel with
  | zero =>
    intro h tv sv dt ds Ft Fs h2 v hrun
    exact absurd hrun (by simp [deepMergeObject])
  | succ fuel ih =>
    intro h tv sv dt ds Ft Fs h2 v hrun hwf htgt hsrc hdisj
    simp only [deepMergeObject] at hrun
    split at hrun
    · simp only [Option.some.injEq, Prod.mk.injEq] at hrun
      obtain ⟨rfl, rfl⟩ := hrun
      exact ⟨le_rfl, hwf, fun a _ _ => rfl⟩
    · split at hrun
      · simp only [Option.some.injEq, Prod.mk.injEq] at hrun
        obtain ⟨rfl, rfl⟩ := hrun
        exact ⟨le_rfl, hwf, fun a _ _ => rfl⟩
      · split at hrun
        · rename_i ta sa hne1 hne2
          split at hrun
          · -- both arrays: fresh allocation, old cells untouched
            rename_i xs ys hgt hgs
            simp only [Option.some.injEq, Prod.mk.injEq] at hrun
            obtain ⟨rfl, rfl⟩ := hrun
            refine ⟨by simp [Heap.alloc], Heap.wf_alloc h _ hwf (arr_keys_nodup _),
              fun a ha _ => Heap.get_alloc_ne h _ a (Nat.ne_of_lt ha)⟩
          · -- both object-like cells: the key-merging loop
            rename_i tc so hno hgt hgs
            cases dt with
            | zero => exact absurd htgt (by simp [TreeAtD])
            | succ dt0 =>
              obtain ⟨tc1, Fc, hgetta, hFteq, htaNotFc, htfields⟩ :
                  ∃ tc1 Fc, h.get ta = some tc1 ∧ Ft = ta :: Fc ∧ ta ∉ Fc ∧
                    FieldsAtP (TreeAtD dt0 h) (cellFields tc1) Fc := by
                rcases htgt with ⟨hscal, _⟩ | ⟨a0, o0, Fc0, heq0, hget0, hFeq0, hnot0, hf0⟩
                · simp [isObjectV] at hscal
                · obtain rfl : a0 = ta := (JSVal.ref.inj heq0).symm
                  exact ⟨o0, Fc0, hget0, hFeq0, hnot0, hf0⟩
              obtain rfl : tc1 = tc := Option.some.inj (hgetta ▸ hgt)
              subst hFteq
              have hkeysNodup : (srcKeys so).Nodup :=
                hwf.2 (sa, so) (Heap.mem_of_get_some h sa so hgs)
              obtain ⟨_, c2, c3, c4, _, _⟩ :=
                mergeKeys_inv fuel ih (srcKeys so) h ta sa (cellFields tc1) Fc dt0 ds Fs
                  h2 v tc1 hrun hwf hgt (fun k _ => rfl) htfields htaNotFc hsrc
                  (fun x hx => hdisj x (List.mem_cons_of_mem ta hx))
                  (hdisj ta (List.mem_cons_self ta Fc)) hkeysNodup
              refine ⟨c2, c3, fun a ha haF => ?_⟩
              exact c4 a ha (fun hx => haF (List.mem_cons_of_mem ta hx))
                (fun hx => haF (hx ▸ List.mem_cons_self ta Fc))
          · exact absurd hrun (by simp)
        · exact absurd hrun (by simp)

/-- C3 counterexample: `deepMergeObject` CAN mutate its source argument
when the target shares a cell with the source.  Here the target's key
`"a"` points at the source mapping itself (cell 2); merging writes the
source's grand-child key `"b"` straight into cell 2, so after the call the
source mapping has gained a binding it did not have before. -/
theorem deepMergeObject_mutates_source_cex :
    ∃ h2 : Heap,
      deepMergeObject 3
        ⟨[(1, HObj.objN [("a", JSVal.ref 2)]),
          (2, HObj.objN [("a", JSVal.ref 3)]),
          (3, HObj.objN [("b", JSVal.bool true)])], 4⟩
        (JSVal.ref 1) (JSVal.ref 2) = some (h2, JSVal.ref 1) ∧
      h2.get 2 ≠
        Heap.get ⟨[(1, HObj.objN [("a", JSVal.ref 2)]),
          (2, HObj.objN [("a", JSVal.ref 3)]),
          (3, HObj.objN [("b", JSVal.bool true)])], 4⟩ 2 :=
  ⟨⟨[(1, HObj.objN [("a", JSVal.ref 2)]),
     (2, HObj.objN [("a", JSVal.ref 3), ("b", JSVal.bool true)]),
     (3, HObj.objN [("b", JSVal.bool true)])], 4⟩, by decide, by decide⟩

/-- C3 (amended): when target and source are keyed mappings that are
tree-shaped with disjoint footprints (no heap cell reachable from both),
`deepMergeObject` leaves every cell of the source's footprint unchanged,
returns the target mapping itself, keeps the binding of every key not
present in the source, and sets each source key to the result of a
recursive merge of the two children.  Without the disjointness
precondition the source can be mutated
(`deepMergeObject_mutates_source_cex`). -/
theorem deepMergeObject_frame_spec
    (fuel dt ds : ℕ) (h : Heap) (ta sa : ℕ) (tc0 so0 : List (String × JSVal))
    (Ft Fs : List ℕ) (h2 : Heap) (v : JSVal)
    (hwf : h.wf)
    (hgt : h.get ta = some (HObj.objN tc0))
    (hgs : h.get sa = some (HObj.objN so0))
    (htgt : TreeAtD dt h (JSVal.ref ta) Ft)
    (hsrc : TreeAtD ds h (JSVal.ref sa) Fs)
    (hdisj : ∀ x ∈ Ft, x ∉ Fs)
    (hrun : deepMergeObject (fuel + 1) h (JSVal.ref ta) (JSVal.ref sa) = some (h2, v)) :
    (∀ x ∈ Fs, h2.get x = h.get x) ∧
    v = JSVal.ref ta ∧
    (∀ k, k ∉ srcKeys (HObj.objN so0) → getProp h2 ta k = getProp h ta k) ∧
    (∀ k ∈ srcKeys (HObj.objN so0), ∃ g h3 h4 mv,
      deepMergeObject g h3 (getProp h3 ta k) (getProp h3 sa k) = some (h4, mv) ∧
      getProp h2 ta k = mv) := by
  rw [show deepMergeObject (fuel + 1) h (JSVal.ref ta) (JSVal.ref sa)
      = mergeKeys (deepMergeObject fuel) ta sa h (srcKeys (HObj.objN so0)) from by
    simp [deepMergeObject, isObjectV, hgt, hgs]] at hrun
  cases dt with
  | zero => exact absurd htgt (by simp [TreeAtD])
  | succ dt0 =>
    obtain ⟨tc1, Fc, hgetta, hFteq, htaNotFc, htfields⟩ :
        ∃ tc1 Fc, h.get ta = some tc1 ∧ Ft = ta :: Fc ∧ ta ∉ Fc ∧
          FieldsAtP (TreeAtD dt0 h) (cellFields tc1) Fc := by
      rcases htgt with ⟨hscal, _⟩ | ⟨a0, o0, Fc0, heq0, hget0, hFeq0, hnot0, hf0⟩
      · simp [isObjectV] at hscal
      · obtain rfl : a0 = ta := (JSVal.ref.inj heq0).symm
        exact ⟨o0, Fc0, hget0, hFeq0, hnot0, hf0⟩
    obtain rfl : tc1 = HObj.objN tc0 := Option.some.inj (hgetta ▸ hgt)
    subst hFteq
    have hkeysNodup : (srcKeys (HObj.objN so0)).Nodup :=
      hwf.2 (sa, HObj.objN so0) (Heap.mem_of_get_some h sa _ hgs)
    have hFsBound : ∀ x ∈ Fs, x < h.next := TreeAtD_bound ds h _ Fs hsrc hwf.1
    obtain ⟨c1, _, _, c4, c5, c6⟩ :=
      mergeKeys_inv fuel (deepMergeObject_inv fuel) (srcKeys (HObj.objN so0)) h ta sa
        (cellFields (HObj.objN tc0)) Fc dt0 ds Fs h2 v (HObj.objN tc0)
        hrun hwf hgt (fun k _ => rfl) htfields htaNotFc hsrc
        (fun x hx => hdisj x (List.mem_cons_of_mem ta hx))
        (hdisj ta (List.mem_cons_self ta Fc)) hkeysNodup
    refine ⟨fun x hx => ?_, c1, c5, c6 tc0 rfl⟩
    exact c4 x (hFsBound x hx)
      (fun hxf => hdisj x (List.mem_cons_of_mem ta hxf) hx)
      (fun hxe => hdisj ta (List.mem_cons_self ta Fc) (hxe ▸ hx))

/-- Witness for `deepMergeObject_frame_spec` on two disjoint empty
mappings at addresses 0 and 1. -/
theorem deepMergeObject_frame_spec_witness :
    (∀ x ∈ ([1] : List ℕ),
        Heap.get ⟨[(0, HObj.objN []), (1, HObj.objN [])], 2⟩ x =
          Heap.get ⟨[(0, HObj.objN []), (1, HObj.objN [])], 2⟩ x) ∧
    JSVal.ref 0 = JSVal.ref 0 ∧
    (∀ k, k ∉ srcKeys (HObj.objN []) →
      getProp ⟨[(0, HObj.objN []), (1, HObj.objN [])], 2⟩ 0 k =
        getProp ⟨[(0, HObj.objN []), (1, HObj.objN [])], 2⟩ 0 k) ∧
    (∀ k ∈ srcKeys (HObj.objN []), ∃ g h3 h4 mv,
      deepMergeObject g h3 (getProp h3 0 k) (getProp h3 1 k) = some (h4, mv) ∧
      getProp ⟨[(0, HObj.objN []), (1, HObj.objN [])], 2⟩ 0 k = mv) :=
  deepMergeObject_frame_spec 0 1 1 ⟨[(0, HObj.objN []), (1, HObj.objN [])], 2⟩ 0 1 [] []
    [0] [1] ⟨[(0, HObj.objN []), (1, HObj.objN [])], 2⟩ (JSVal.ref 0)
    ⟨by decide, by decide⟩ (by decide) (by decide)
    (Or.inr ⟨0, HObj.objN [], [], rfl, by decide, rfl, by simp, rfl⟩)
    (Or.inr ⟨1, HObj.objN [], [], rfl, by decide, rfl, by simp, rfl⟩)
    (by decide) (by decide)
